import Mathlib

set_option maxRecDepth 8000

/-!
Shallow embedding of the beanseye scheduler module (`memcache/scheduler.go`).

Modelling conventions:
* Go strings / byte slices are `List Char` (ASCII: one byte per character).
* Go `uint32` values are `Nat`; hash methods are assumed to return values `< 2^32`
  (the `uint32` return type), stated as a hypothesis where it matters.
* Go `rune` (`int32`) arithmetic in `hextoi` is modelled with explicit wrap-around.
* Go `float64` weights are modelled as exact rationals `ℚ`; the ordering claims
  under study depend only on comparisons of the stored values.
* A Go runtime panic (index out of range, division by zero) is `Option.none`.
-/

/-- Convert a string literal to the `List Char` representation used throughout. -/
def str (s : String) : List Char := s.data

/-- A Go `HashMethod`: `func([]byte) uint32`. Values are assumed `< 2^32`. -/
abbrev HashMethod := List Char → Nat

/-- Modelled from the spec: the hash-method registry (`hashMethods` and the
`fnv1a1` entry used by `ManualScheduler`/`AutoScheduler`) is not under `src/`;
spec §6 describes it as "an FNV-1a variant". Standard 32-bit FNV-1a over the
bytes of the key. -/
def fnv1a1 : HashMethod := fun s =>
  s.foldl (fun h c => ((h ^^^ (c.toNat % 256)) * 16777619) % 2 ^ 32) 2166136261

/-- Reinterpret an integer as a Go `rune` (`int32`): wrap into `[-2^31, 2^31)`. -/
def wrap32 (x : Int) : Int := (x + 2 ^ 31) % 2 ^ 32 - 2 ^ 31

/-- Digit value added by the `switch` in `hextoi`; characters outside the three
hex ranges add nothing (they contribute digit value 0). -/
def hexDigitVal (c : Char) : Int :=
  if '0' ≤ c ∧ c ≤ '9' then (c.toNat : Int) - ('0'.toNat : Int)
  else if 'A' ≤ c ∧ c ≤ 'F' then 10 + ((c.toNat : Int) - ('A'.toNat : Int))
  else if 'a' ≤ c ∧ c ≤ 'f' then 10 + ((c.toNat : Int) - ('a'.toNat : Int))
  else 0

/-- Function `hextoi` from scheduler.go. The accumulator `r` is a Go `rune` (`int32`),
so both the `r *= 16` and the `r += digit` steps wrap; the final `int(r)`
conversion is value-preserving (Go `int` is 64-bit). -/
def hextoi (s : List Char) : Int :=
  s.foldl (fun r c => wrap32 (wrap32 (r * 16) + hexDigitVal c)) 0

/-- Exact (non-wrapping) base-16 reading with the same digit convention, used
to state what the spec calls "the base-16 parse". -/
def hexParse (s : List Char) : Int :=
  s.foldl (fun r c => r * 16 + hexDigitVal c) 0

/-- The `for bs > 1 { bucketWidth++; bs /= 2 }` loop of `getBucketByKey`.
Fuel-indexed so that it reduces by kernel computation; `bs` is a Go `int`
(64-bit), so 64 units of fuel always suffice. -/
def bucketWidthAux : Nat → Nat → Nat
  | 0, _ => 0
  | fuel + 1, bs => if bs > 1 then bucketWidthAux fuel (bs / 2) + 1 else 0

/-- The `bucketWidth` value as computed by `getBucketByKey`: `⌊log2 bs⌋` for `bs ≥ 1`. -/
def bucketWidthOf (bs : Nat) : Nat := bucketWidthAux 64 bs

/-- Go evaluates `h >> uint(32-bucketWidth)`: the signed difference is converted
to `uint`; for `bucketWidth > 32` this is a huge shift count and shifting a
`uint32` by it yields 0, which `>>>` on `Nat` reproduces. -/
def goUintShift (bw : Nat) : Nat := (((32 : Int) - (bw : Int)) % (2 ^ 64 : Int)).toNat

/-- Function `getBucketByKey` from scheduler.go. The result is a Go `int` (it can be
negative via `rune` wrap-around inside `hextoi`). -/
def getBucketByKey (hashf : HashMethod) (bs : Nat) (key : List Char) : Int :=
  let bw := bucketWidthOf bs
  if key.length > bw / 4 ∧ key.headD ' ' = '@' then
    hextoi ((key.drop 1).take (bw / 4))
  else
    let key := if key.length ≥ 1 ∧ key.headD ' ' = '?' then key.drop 1 else key
    ((hashf key >>> goUintShift bw : Nat) : Int)

/-! ### Probe-response parsing (`AutoScheduler.listHost`) -/

/-- Go `bytes.SplitN(s, sep, n)` for a one-byte separator and `n ≥ 1`: at most `n`
pieces, the last piece keeping the remainder with its separators (Go returns
`nil` for `n = 0`; that case is unused here). -/
def splitNChar (sep : Char) : Nat → List Char → List (List Char)
  | 0, _ => []
  | 1, s => [s]
  | n + 2, s =>
    match s.span (fun c => c != sep) with
    | (pre, []) => [pre]
    | (pre, _ :: rest) => pre :: splitNChar sep (n + 1) rest

/-- Decimal digits to a number. -/
def natOfDigits (ds : List Char) : Nat :=
  ds.foldl (fun a c => 10 * a + (c.toNat - '0'.toNat)) 0

/-- Partial model of Go `strconv.ParseFloat` (standard library): an optional
sign followed by decimal digits with an optional fractional part; everything
else is a syntax error (`none`). Exponent and hex forms are omitted — the probe
records under study carry plain decimal counts, for which this model is exact,
and every claim only distinguishes "parses to `q`" from "syntax error". -/
def goParseFloat (s : List Char) : Option ℚ :=
  let sgnt : ℚ × List Char :=
    match s with
    | '+' :: t => (1, t)
    | '-' :: t => (-1, t)
    | t => (1, t)
  let ds := sgnt.2.takeWhile Char.isDigit
  match sgnt.2.dropWhile Char.isDigit with
  | [] => if ds.isEmpty then none else some (sgnt.1 * natOfDigits ds)
  | '.' :: fs =>
    if fs.all Char.isDigit ∧ ¬(ds.isEmpty ∧ fs.isEmpty) then
      some (sgnt.1 * ((natOfDigits ds : ℚ) + (natOfDigits fs : ℚ) / (10 ^ fs.length)))
    else none
  | _ => none

/-- One iteration of the record loop in `AutoScheduler.listHost`: skip the line
unless it has at least two spaces and its second byte is `'/'`; otherwise split
into `name flags count`, parse the count with the error discarded (`cnt, _ :=`
yields 0 on failure), and submit feedback `(dir+name, Sqrt cnt)`. `math.Sqrt`
is the parameter `sqrtF`; the claims need only IEEE's exact `Sqrt 0 = 0`. -/
def listHostLine (sqrtF : ℚ → ℚ) (dir line : List Char) : Option (List Char × ℚ) :=
  if line.count ' ' < 2 ∨ line.getD 1 ' ' ≠ '/' then none
  else
    let vv := splitNChar ' ' 3 line
    let cnt := (goParseFloat (vv.getD 2 [])).getD 0
    some (dir ++ vv.getD 0 [], sqrtF cnt)

/-- The feedback submissions made by `AutoScheduler.listHost` for one probe
response body: the body is split into at most 17 newline-chunks and each chunk
is processed independently by `listHostLine`. -/
def listHostFeedbacks (sqrtF : ℚ → ℚ) (dir body : List Char) : List (List Char × ℚ) :=
  (splitNChar '\n' 17 body).filterMap (listHostLine sqrtF dir)

/-! ### ModScheduler -/

/-- Go `ModScheduler.GetHostsByKey`. A `Host` is identified by its address
(`NewHost` records the address; the connection machinery is out of scope).
`hash % uint32(len(hosts))` panics (`none`) when the divisor is zero. -/
def modGetHostsByKey (hashf : HashMethod) (hosts : List (List Char)) (key : List Char) :
    Option (List (List Char)) :=
  let m := hosts.length % 2 ^ 32
  if m = 0 then none
  else some [hosts.getD (hashf key % m) []]

/-- The `rs[h] = append(rs[h], key)` grouping loop shared by the
`DivideKeysByBucket` implementations. -/
def divideKeys (owner : List Char → Nat) (n : Nat) (keys : List (List Char)) :
    List (List (List Char)) :=
  keys.foldl (fun rs key => rs.set (owner key) (rs.getD (owner key) [] ++ [key]))
    (List.replicate n [])

/-- Go `ModScheduler.DivideKeysByBucket`. -/
def modDivideKeysByBucket (hashf : HashMethod) (hosts : List (List Char))
    (keys : List (List Char)) : List (List (List Char)) :=
  divideKeys (fun key => hashf key % (hosts.length % 2 ^ 32)) hosts.length keys

/-! ### ConsistantHashScheduler -/

def VIRTUAL_NODES : Nat := 100

/-- Go `strings.SplitN(s, ":", 2)`. -/
def splitN2 (s : List Char) (sep : Char) : List (List Char) :=
  match s.span (fun c => c != sep) with
  | (pre, []) => [pre]
  | (pre, _ :: rest) => [pre, rest]

/-- The ring entries built by the `NewConsistantHashScheduler` loops, in host
order (`i` is the running host index). Each entry is
`(uint64(v) << 32) + uint64(i) = v * 2^32 + i`. `fmt.Sprintf("%s-%d", h, j)` is
`h ++ "-" ++ decimal j`; when the port (everything after the first colon) is
`"11211"` the bare hostname is hashed instead. `none` models the `ps[1]`
index-out-of-range panic when an address has no colon. -/
def chEntries (hashf : HashMethod) : Nat → List (List Char) → Option (List Nat)
  | _, [] => some []
  | i, h :: hs =>
    match splitN2 h ':' with
    | [host, port] =>
      match chEntries hashf (i + 1) hs with
      | some rest =>
        some (((List.range VIRTUAL_NODES).map fun j =>
          let v := hashf (h ++ '-' :: Nat.toDigits 10 j)
          let v := if port = str "11211" then hashf (host ++ '-' :: Nat.toDigits 10 j) else v
          v * 2 ^ 32 + i) ++ rest)
      | none => none
    | _ => none

/-- Go `sort.Sort`'s contract (sort ascending), modelled by insertion sort. -/
def sortIndex (l : List Nat) : List Nat := l.insertionSort (· ≤ ·)

/-- Go `sort.IsSorted` on `uint64Slice`: adjacent pairs are non-decreasing. -/
def isSortedLeB : List Nat → Bool
  | a :: b :: t => a ≤ b && isSortedLeB (b :: t)
  | _ => true

/-- Go `NewConsistantHashScheduler`: build the ring entries, sort them, and check
sortedness — the "sort failed" panic is the `none` of the final check. The
scheduler value is the pair (host addresses, ring index). -/
def newConsistantHashScheduler (hashf : HashMethod) (hosts : List (List Char)) :
    Option (List (List Char) × List Nat) :=
  match chEntries hashf 0 hosts with
  | none => none
  | some es =>
    let idx := sortIndex es
    if isSortedLeB idx then some (hosts, idx) else none

/-- Go `sort.Search(n, f)`: binary search maintaining `i ≤ result ≤ j`. -/
def goSearchAux (f : Nat → Bool) (i j : Nat) : Nat :=
  if hij : i < j then
    let m := (i + j) / 2
    if f m then goSearchAux f i m else goSearchAux f (m + 1) j
  else i
termination_by j - i
decreasing_by
  all_goals simp only [m] at *
  all_goals omega

/-- Go `sort.Search(n, f)`: the least index in `[0, n]` where `f` holds, under
a monotone `f`. -/
def goSearch (n : Nat) (f : Nat → Bool) : Nat := goSearchAux f 0 n

/-- Go `ConsistantHashScheduler.getHostIndex`. Here `h` is `uint64(hash(key)) << 32`;
`e & 0xffffffff` is `e % 2^32`. -/
def getHostIndex (hashf : HashMethod) (c : List (List Char) × List Nat)
    (key : List Char) : Nat :=
  let h := hashf key * 2 ^ 32
  let N := c.2.length
  let i := goSearch N (fun k => decide (h ≤ c.2.getD k 0))
  let i := if i = N then 0 else i
  c.2.getD i 0 % 2 ^ 32

/-- Go `ConsistantHashScheduler.GetHostsByKey`: exactly one host; an out-of-range
host index would be Go's index panic (`none`). -/
def chGetHostsByKey (hashf : HashMethod) (c : List (List Char) × List Nat)
    (key : List Char) : Option (List (List Char)) :=
  (c.1.get? (getHostIndex hashf c key)).map fun h => [h]

/-- Go `ConsistantHashScheduler.DivideKeysByBucket`. -/
def chDivideKeysByBucket (hashf : HashMethod) (c : List (List Char) × List Nat)
    (keys : List (List Char)) : List (List (List Char)) :=
  divideKeys (getHostIndex hashf c) c.1.length keys

/-! ### ManualScheduler -/

/-- Go `NewManualScheduler`: the `map[string][]int` config is modelled as an
association list (Go iterates maps in unspecified order; only the internal host
order of a bucket depends on it). Result: (host addresses, buckets). -/
def newManualScheduler (config : List (List Char × List Nat)) :
    List (List Char) × List (List (List Char)) :=
  let count := config.foldl (fun cnt p => p.2.foldl (fun c b => if b ≥ c then b + 1 else c) cnt) 1
  let buckets := config.foldl
    (fun bks p => p.2.foldl (fun bks bi => bks.set bi (bks.getD bi [] ++ [p.1])) bks)
    (List.replicate count [])
  (config.map Prod.fst, buckets)

/-- Go `ManualScheduler.GetHostsByKey`: all hosts of the key's bucket, rotated by
`rnd = hash(key) % uint32(N)`; `none` models the division-by-zero panic when
the bucket is empty (`N = 0`) and the index panic for an out-of-range bucket.
The scheduler's hash method is fixed to `fnv1a1` by `NewManualScheduler`. -/
def manualGetHostsByKey (c : List (List Char) × List (List (List Char)))
    (key : List Char) : Option (List (List Char)) :=
  let i := getBucketByKey fnv1a1 c.2.length key
  if 0 ≤ i ∧ i.toNat < c.2.length then
    let bucket := c.2.getD i.toNat []
    let N := bucket.length
    if N % 2 ^ 32 = 0 then none
    else
      let rnd := fnv1a1 key % (N % 2 ^ 32)
      some ((List.range N).foldl (fun hs j => hs.set ((j + rnd) % N) (bucket.getD j []))
        (List.replicate N []))
  else none

/-! ### AutoScheduler -/

/-- The bubble-left loop of `AutoScheduler.feedback`
(`for k > 0 && stats[buckets[k]] > stats[buckets[k-1]] { swap(buckets,k,k-1); k-- }`)
as a zipper: `revPre` is the reversed prefix strictly before position `k`,
`x = buckets[k]` is the moving element, `suffix` is the part after it. -/
def bubbleUp (w : Nat → ℚ) (x : Nat) : List Nat → List Nat → List Nat
  | suffix, [] => x :: suffix
  | suffix, y :: p =>
    if w y < w x then bubbleUp w x (y :: suffix) p else (y :: p).reverse ++ x :: suffix

/-- The bubble-right loop
(`for k < len-1 && stats[buckets[k]] < stats[buckets[k+1]] { swap(buckets,k,k+1); k++ }`):
`x = buckets[k]` sifts down through the remainder of the order. -/
def bubbleDown (w : Nat → ℚ) (x : Nat) : List Nat → List Nat
  | [] => [x]
  | y :: r => if w x < w y then y :: bubbleDown w x r else x :: y :: r

/-- Go `AutoScheduler.feedback(i, index, adjust)` restricted to one bucket's pair
(stats row, preference order): update the weight, locate `i` (the `span`
computes the same split as the linear search for `k`), then bubble in the
direction of the weight change. When `i` does not occur in the order, Go's
search runs to `len(hosts)`: the decrease branch then moves nothing and the
increase branch would panic reading `buckets[k]`; real states always contain
`i`, and the model leaves the order unchanged there. -/
def feedback (st : List ℚ × List Nat) (i : Nat) (adjust : ℚ) : List ℚ × List Nat :=
  let old := st.1.getD i 0
  let neww := if 0 ≤ adjust then (old + adjust) / 2 else old + adjust
  let stats := st.1.set i neww
  let w := fun h => stats.getD h 0
  match st.2.span (fun a => a != i) with
  | (pre, x :: r) =>
    if 0 < neww - old then (stats, bubbleUp w x r pre.reverse)
    else (stats, pre ++ bubbleDown w x r)
  | (pre, []) => (stats, pre)

/-- Fresh `AutoScheduler` routing state (`NewAutoScheduler` with `n` hosts and
`bs` buckets): every bucket's preference order is `0,…,n-1`, all weights 0. -/
def newAutoState (n bs : Nat) : List (List ℚ) × List (List Nat) :=
  (List.replicate bs (List.replicate n 0), List.replicate bs (List.range n))

/-- One message drained by the feedback worker (`procFeedback` calling
`c.feedback(fb.hostIndex, fb.bucketIndex, fb.adjust)`); a message is
`(hostIndex, (bucketIndex, adjust))`. -/
def autoStep (st : List (List ℚ) × List (List Nat)) (m : Nat × Nat × ℚ) :
    List (List ℚ) × List (List Nat) :=
  let row := feedback (st.1.getD m.2.1 [], st.2.getD m.2.1 []) m.1 m.2.2
  (st.1.set m.2.1 row.1, st.2.set m.2.1 row.2)

/-- Go `AutoScheduler.GetHostsByKey`: the key's bucket's full preference order,
mapped through the host table; out-of-range indices are Go panics (`none`). -/
def autoGetHostsByKey (hashf : HashMethod) (hosts : List (List Char))
    (st : List (List ℚ) × List (List Nat)) (key : List Char) :
    Option (List (List Char)) :=
  let i := getBucketByKey hashf st.2.length key
  if 0 ≤ i ∧ i.toNat < st.2.length then
    (List.range hosts.length).mapM fun j =>
      ((st.2.getD i.toNat []).get? j).bind fun hIdx => hosts.get? hIdx
  else none

/-- Descending-weight sortedness of a preference order (ties allowed): the
invariant the feedback algorithm maintains. -/
def sortedDesc (w : Nat → ℚ) (l : List Nat) : Prop := l.Chain' fun a b => w b ≤ w a

/-- Position of host `i` in a preference order (the `k` found by the linear
search in `feedback`; the length of the order if `i` is absent). -/
def posOf (i : Nat) (l : List Nat) : Nat := (l.takeWhile (fun a => a != i)).length

/-! ### Generic helper lemmas -/

theorem getD_set_self' {α : Type} (l : List α) (i : Nat) (v d : α) (h : i < l.length) :
    (l.set i v).getD i d = v := by
  simp [List.getD_eq_getElem?_getD, List.getElem?_set_self, h]

theorem getD_set_ne' {α : Type} (l : List α) (i j : Nat) (v d : α) (h : i ≠ j) :
    (l.set i v).getD j d = l.getD j d := by
  simp [List.getD_eq_getElem?_getD, List.getElem?_set_ne h]

theorem getD_replicate' {α : Type} (n b : Nat) (x d : α) (h : b < n) :
    (List.replicate n x).getD b d = x := by
  simp [List.getD_eq_getElem?_getD, List.getElem?_replicate, h]

theorem chain'_of_forall {α : Type} (R : α → α → Prop) (h : ∀ a b, R a b) :
    ∀ l : List α, l.Chain' R := by
  intro l
  induction l with
  | nil => simp
  | cons a t ih =>
    cases t with
    | nil => simp
    | cons b t2 => exact List.chain'_cons.mpr ⟨h a b, ih⟩

theorem chain'_congr_on {α : Type} (R S : α → α → Prop) :
    ∀ l : List α, (∀ a ∈ l, ∀ b ∈ l, R a b → S a b) → l.Chain' R → l.Chain' S := by
  intro l
  induction l with
  | nil => simp
  | cons a t ih =>
    cases t with
    | nil => simp
    | cons b t2 =>
      intro h hc
      rw [List.chain'_cons] at hc ⊢
      refine ⟨h a (by simp) b (by simp) hc.1, ih ?_ hc.2⟩
      intro x hx y hy
      exact h x (List.mem_cons_of_mem a hx) y (List.mem_cons_of_mem a hy)

theorem posOf_cons_self (i : Nat) (t : List Nat) : posOf i (i :: t) = 0 := by
  simp [posOf, List.takeWhile_cons]

theorem posOf_append_not_mem (i : Nat) (p m : List Nat) (hp : i ∉ p) :
    posOf i (p ++ m) = p.length + posOf i m := by
  induction p with
  | nil => simp
  | cons a t ih =>
    have ha : (a != i) = true := by
      simp only [bne_iff_ne, ne_eq]
      intro hai
      exact hp (hai ▸ List.mem_cons_self a t)
    have ht : i ∉ t := fun hit => hp (List.mem_cons_of_mem a hit)
    simp only [List.cons_append, posOf, List.takeWhile_cons, ha, if_true, List.length_cons]
    have := ih ht
    simp only [posOf] at this
    omega

/-- Splitting a list at the first occurrence of `i`: what the `span` in
`feedback` produces when `i` occurs. -/
theorem dropWhile_mem_decomp (i : Nat) (l : List Nat) (h : i ∈ l) :
    ∃ r, l.dropWhile (fun a => a != i) = i :: r ∧
      l = l.takeWhile (fun a => a != i) ++ i :: r ∧
      i ∉ l.takeWhile (fun a => a != i) := by
  have hnotin : i ∉ l.takeWhile (fun a => a != i) := by
    intro hmem
    have := List.mem_takeWhile_imp hmem
    simp at this
  cases hd : l.dropWhile (fun a => a != i) with
  | nil =>
    exfalso
    have := List.dropWhile_eq_nil_iff.mp hd i h
    simp at this
  | cons a r =>
    have hhead := List.head?_dropWhile_not (fun a => a != i) l
    rw [hd] at hhead
    simp only [List.head?_cons] at hhead
    have ha : a = i := by simpa using hhead
    subst ha
    exact ⟨r, rfl, by rw [← hd, List.takeWhile_append_dropWhile], hnotin⟩

/-! ### Bubble-step lemmas -/

theorem bubbleDown_perm (w : Nat → ℚ) (x : Nat) : ∀ r, (bubbleDown w x r).Perm (x :: r) := by
  intro r
  induction r with
  | nil => rw [bubbleDown]
  | cons y t ih =>
    rw [bubbleDown]
    by_cases hxy : w x < w y
    · rw [if_pos hxy]
      exact (ih.cons y).trans (List.Perm.swap x y t)
    · rw [if_neg hxy]

theorem bubbleDown_head (w : Nat → ℚ) (x : Nat) (r : List Nat) :
    (bubbleDown w x r).head? = some x ∨ (bubbleDown w x r).head? = r.head? := by
  cases r with
  | nil => left; rw [bubbleDown]; rfl
  | cons y t =>
    rw [bubbleDown]
    by_cases hxy : w x < w y
    · rw [if_pos hxy]; right; rfl
    · rw [if_neg hxy]; left; rfl

theorem bubbleDown_sorted (w : Nat → ℚ) (x : Nat) :
    ∀ r, r.Chain' (fun a b => w b ≤ w a) →
      (bubbleDown w x r).Chain' (fun a b => w b ≤ w a) := by
  intro r
  induction r with
  | nil => rw [bubbleDown]; intro _; exact List.chain'_singleton x
  | cons y t ih =>
    intro hc
    rw [bubbleDown]
    by_cases hxy : w x < w y
    · rw [if_pos hxy]
      rw [List.chain'_cons']
      refine ⟨?_, ih (List.chain'_cons'.mp hc).2⟩
      intro z hz
      rcases bubbleDown_head w x t with hh | hh
      · rw [hh] at hz
        simp only [Option.mem_def, Option.some.injEq] at hz
        subst hz
        exact le_of_lt hxy
      · rw [hh] at hz
        exact (List.chain'_cons'.mp hc).1 z hz
    · rw [if_neg hxy]
      exact List.chain'_cons.mpr ⟨le_of_not_lt hxy, hc⟩

theorem bubbleUp_perm (w : Nat → ℚ) (x : Nat) :
    ∀ revPre suffix, (bubbleUp w x suffix revPre).Perm (x :: (suffix ++ revPre)) := by
  intro revPre
  induction revPre with
  | nil => intro suffix; rw [bubbleUp]; simp
  | cons y p ih =>
    intro suffix
    rw [bubbleUp]
    by_cases h : w y < w x
    · rw [if_pos h]
      refine (ih (y :: suffix)).trans (List.Perm.cons x ?_)
      exact List.perm_middle.symm
    · rw [if_neg h]
      refine List.perm_middle.trans (List.Perm.cons x ?_)
      exact (List.perm_append_comm).trans (List.Perm.append_left suffix (List.reverse_perm _))

theorem bubbleUp_sorted (w : Nat → ℚ) (x : Nat) :
    ∀ revPre suffix, (revPre.reverse).Chain' (fun a b => w b ≤ w a) →
      (x :: suffix).Chain' (fun a b => w b ≤ w a) →
      (∀ y ∈ revPre.head?, ∀ z ∈ suffix.head?, w z ≤ w y) →
      (bubbleUp w x suffix revPre).Chain' (fun a b => w b ≤ w a) := by
  intro revPre
  induction revPre with
  | nil => intro suffix _ h2 _; rw [bubbleUp]; exact h2
  | cons y p ih =>
    intro suffix h1 h2 h3
    rw [bubbleUp]
    rw [List.reverse_cons] at h1
    by_cases h : w y < w x
    · rw [if_pos h]
      apply ih (y :: suffix)
      · exact (List.chain'_append.mp h1).1
      · rw [List.chain'_cons]
        refine ⟨le_of_lt h, ?_⟩
        rw [List.chain'_cons']
        exact ⟨fun z hz => h3 y (by simp) z hz, (List.chain'_cons'.mp h2).2⟩
      · intro y2 hy2 z hz
        simp only [List.head?_cons, Option.mem_def, Option.some.injEq] at hz
        subst hz
        have hlink := (List.chain'_append.mp h1).2.2
        apply hlink
        · rw [List.getLast?_reverse]; exact hy2
        · simp
    · rw [if_neg h]
      rw [List.reverse_cons, List.chain'_append]
      refine ⟨h1, h2, ?_⟩
      intro a ha b hb
      rw [List.getLast?_concat] at ha
      simp only [List.head?_cons, Option.mem_def, Option.some.injEq] at ha hb
      subst ha; subst hb
      exact le_of_not_lt h

theorem bubbleUp_pos (w : Nat → ℚ) (x : Nat) :
    ∀ revPre suffix, x ∉ revPre → x ∉ suffix →
      posOf x (bubbleUp w x suffix revPre) ≤ revPre.length := by
  intro revPre
  induction revPre with
  | nil => intro suffix _ _; rw [bubbleUp, posOf_cons_self]; exact Nat.zero_le _
  | cons y p ih =>
    intro suffix hrp hs
    rw [bubbleUp]
    by_cases h : w y < w x
    · rw [if_pos h]
      have hxp : x ∉ p := fun hx => hrp (List.mem_cons_of_mem y hx)
      have hxys : x ∉ y :: suffix := by
        intro hx
        rcases List.mem_cons.mp hx with he | hx2
        · exact hrp (he ▸ List.mem_cons_self y p)
        · exact hs hx2
      calc posOf x (bubbleUp w x (y :: suffix) p) ≤ p.length := ih (y :: suffix) hxp hxys
        _ ≤ (y :: p).length := by simp [Nat.le_succ]
    · rw [if_neg h]
      have hnr : x ∉ (y :: p).reverse := by rw [List.mem_reverse]; exact hrp
      rw [posOf_append_not_mem x _ _ hnr, posOf_cons_self, List.length_reverse]
      omega

/-! ### Bucket addressing lemmas -/

theorem hexDigitVal_bounds (c : Char) : 0 ≤ hexDigitVal c ∧ hexDigitVal c < 16 := by
  unfold hexDigitVal
  split_ifs with h1 h2 h3
  · have l : ('0').toNat ≤ c.toNat := h1.1
    have u : c.toNat ≤ ('9').toNat := h1.2
    have e0 : ('0').toNat = 48 := rfl
    have e9 : ('9').toNat = 57 := rfl
    omega
  · have l : ('A').toNat ≤ c.toNat := h2.1
    have u : c.toNat ≤ ('F').toNat := h2.2
    have e0 : ('A').toNat = 65 := rfl
    have e9 : ('F').toNat = 70 := rfl
    omega
  · have l : ('a').toNat ≤ c.toNat := h3.1
    have u : c.toNat ≤ ('f').toNat := h3.2
    have e0 : ('a').toNat = 97 := rfl
    have e9 : ('f').toNat = 102 := rfl
    omega
  · norm_num

theorem wrap32_eq_self (x : Int) (h1 : -(2 ^ 31) ≤ x) (h2 : x < 2 ^ 31) : wrap32 x = x := by
  unfold wrap32
  have ha : (0 : Int) ≤ x + 2 ^ 31 := by linarith
  have hb : x + 2 ^ 31 < 2 ^ 32 := by norm_num at h2 ⊢; linarith
  rw [Int.emod_eq_of_lt ha hb]
  ring

theorem hextoi_foldl_exact : ∀ (s : List Char) (r : Int), 0 ≤ r →
    (r + 1) * 16 ^ s.length ≤ 2 ^ 31 →
    (List.foldl (fun r c => wrap32 (wrap32 (r * 16) + hexDigitVal c)) r s =
        List.foldl (fun r c => r * 16 + hexDigitVal c) r s ∧
      0 ≤ List.foldl (fun r c => r * 16 + hexDigitVal c) r s ∧
      List.foldl (fun r c => r * 16 + hexDigitVal c) r s < (r + 1) * 16 ^ s.length) := by
  intro s
  induction s with
  | nil =>
    intro r h0 hb
    refine ⟨rfl, h0, ?_⟩
    norm_num
  | cons c t ih =>
    intro r h0 hb
    obtain ⟨hd0, hd16⟩ := hexDigitVal_bounds c
    have hppos : (0 : Int) < 16 ^ t.length := by positivity
    have h1le : (1 : Int) ≤ 16 ^ t.length := hppos
    have hlen : (16 : Int) ^ (c :: t).length = 16 * 16 ^ t.length := by
      rw [List.length_cons, pow_succ]; ring
    rw [hlen] at hb
    have hb2 : (r * 16 + hexDigitVal c + 1) * 16 ^ t.length ≤ 2 ^ 31 := by
      have step : (r * 16 + hexDigitVal c + 1) * 16 ^ t.length ≤
          (r + 1) * (16 * 16 ^ t.length) := by
        have : r * 16 + hexDigitVal c + 1 ≤ (r + 1) * 16 := by linarith
        nlinarith
      linarith
    have hr16 : r * 16 < 2 ^ 31 := by nlinarith
    have hrd : r * 16 + hexDigitVal c < 2 ^ 31 := by nlinarith
    have hw1 : wrap32 (r * 16) = r * 16 := wrap32_eq_self _ (by nlinarith) hr16
    have hw2 : wrap32 (r * 16 + hexDigitVal c) = r * 16 + hexDigitVal c :=
      wrap32_eq_self _ (by linarith) hrd
    simp only [List.foldl_cons, hw1, hw2]
    have hres := ih (r * 16 + hexDigitVal c) (by linarith) hb2
    refine ⟨hres.1, hres.2.1, ?_⟩
    calc List.foldl (fun r c => r * 16 + hexDigitVal c) (r * 16 + hexDigitVal c) t
        < (r * 16 + hexDigitVal c + 1) * 16 ^ t.length := hres.2.2
      _ ≤ (r + 1) * (16 * 16 ^ t.length) := by nlinarith
      _ = (r + 1) * 16 ^ (c :: t).length := by rw [hlen]

/-- For at most 7 hex characters the `rune` arithmetic in `hextoi` cannot wrap:
it computes the exact base-16 parse, which is non-negative and bounded. -/
theorem hextoi_exact (s : List Char) (hl : s.length ≤ 7) :
    hextoi s = hexParse s ∧ 0 ≤ hexParse s ∧ hexParse s < 16 ^ s.length := by
  have hbound : ((0 : Int) + 1) * 16 ^ s.length ≤ 2 ^ 31 := by
    have h1 : (16 : Int) ^ s.length ≤ 16 ^ 7 :=
      pow_le_pow_right₀ (by norm_num) hl
    norm_num at h1 ⊢
    linarith
  have h := hextoi_foldl_exact s 0 le_rfl hbound
  unfold hextoi hexParse
  refine ⟨h.1, h.2.1, ?_⟩
  have := h.2.2
  linarith

theorem bucketWidthAux_pow : ∀ (w fuel : Nat), w < fuel → bucketWidthAux fuel (2 ^ w) = w := by
  intro w
  induction w with
  | zero =>
    intro fuel hf
    cases fuel with
    | zero => omega
    | succ f => simp [bucketWidthAux]
  | succ k ih =>
    intro fuel hf
    cases fuel with
    | zero => omega
    | succ f =>
      rw [bucketWidthAux]
      have h1 : 2 ^ (k + 1) > 1 := by
        have : 2 ^ (k + 1) ≥ 2 ^ 1 := Nat.pow_le_pow_right (by norm_num) (by omega)
        omega
      rw [if_pos h1]
      have h2 : 2 ^ (k + 1) / 2 = 2 ^ k := by
        rw [pow_succ, Nat.mul_div_cancel _ (by norm_num)]
      rw [h2, ih f (by omega)]

theorem bucketWidthOf_pow (w : Nat) (hw : w < 64) : bucketWidthOf (2 ^ w) = w :=
  bucketWidthAux_pow w 64 hw

theorem goUintShift_eq (w : Nat) (hw : w ≤ 32) : goUintShift w = 32 - w := by
  unfold goUintShift
  have h1 : (0 : Int) ≤ 32 - (w : Int) := by omega
  have h2 : (32 : Int) - w < 2 ^ 64 := by
    have : (2 : Int) ^ 64 = 18446744073709551616 := by norm_num
    omega
  rw [Int.emod_eq_of_lt h1 h2]
  omega

/-- The two top-level branches of `getBucketByKey` for a power-of-two bucket
count with `bucketWidth ≤ 32`. -/
theorem getBucketByKey_cases (hashf : HashMethod) (w : Nat) (hw : w ≤ 32) (hw2 : w < 64)
    (key : List Char) :
    getBucketByKey hashf (2 ^ w) key =
      if key.length > w / 4 ∧ key.headD ' ' = '@' then hextoi ((key.drop 1).take (w / 4))
      else ((hashf (if key.length ≥ 1 ∧ key.headD ' ' = '?' then key.drop 1 else key) >>>
        (32 - w) : Nat) : Int) := by
  unfold getBucketByKey
  rw [bucketWidthOf_pow w hw2]
  simp only []
  rw [goUintShift_eq w hw]

/-! ### Binary search (`sort.Search`) lemmas -/

theorem goSearchAux_spec (f : Nat → Bool) (top : Nat)
    (mono : ∀ a b, a ≤ b → b < top → f a = true → f b = true) :
    ∀ (d i j : Nat), j - i ≤ d → i ≤ j → j ≤ top →
      (∀ k, k < i → f k = false) → (∀ k, j ≤ k → k < top → f k = true) →
      (i ≤ goSearchAux f i j ∧ goSearchAux f i j ≤ j ∧
        (∀ k, k < goSearchAux f i j → f k = false) ∧
        (goSearchAux f i j < top → f (goSearchAux f i j) = true)) := by
  intro d
  induction d with
  | zero =>
    intro i j hd hij hjt hlow hhigh
    have hije : i = j := by omega
    subst hije
    rw [goSearchAux, dif_neg (lt_irrefl i)]
    exact ⟨le_rfl, le_rfl, hlow, fun h => hhigh i le_rfl h⟩
  | succ d ih =>
    intro i j hd hij hjt hlow hhigh
    rw [goSearchAux]
    by_cases hlt : i < j
    · rw [dif_pos hlt]
      have hmi : i ≤ (i + j) / 2 := by omega
      have hmj : (i + j) / 2 < j := by omega
      cases hf : f ((i + j) / 2) with
      | true =>
        rw [if_pos (by rw [hf])]
        have hhigh2 : ∀ k, (i + j) / 2 ≤ k → k < top → f k = true :=
          fun k hk1 hk2 => mono _ k hk1 hk2 hf
        obtain ⟨h1, h2, h3, h4⟩ :=
          ih i ((i + j) / 2) (by omega) (by omega) (by omega) hlow hhigh2
        exact ⟨h1, le_trans h2 (le_of_lt hmj), h3, h4⟩
      | false =>
        rw [if_neg (by rw [hf]; simp)]
        have hlow2 : ∀ k, k < (i + j) / 2 + 1 → f k = false := by
          intro k hk
          by_cases hki : k < i
          · exact hlow k hki
          · cases hfk : f k with
            | false => rfl
            | true =>
              have := mono k ((i + j) / 2) (by omega) (by omega) hfk
              rw [hf] at this
              exact absurd this (by simp)
        obtain ⟨h1, h2, h3, h4⟩ :=
          ih ((i + j) / 2 + 1) j (by omega) (by omega) hjt hlow2 hhigh
        exact ⟨by omega, h2, h3, h4⟩
    · rw [dif_neg hlt]
      exact ⟨le_rfl, hij, hlow, fun h => hhigh i (by omega) h⟩

/-- Go `sort.Search(n, f)` under a monotone predicate: the result is at most
`n`, everything before it fails `f`, and it satisfies `f` when it is `< n`. -/
theorem goSearch_spec (n : Nat) (f : Nat → Bool)
    (mono : ∀ a b, a ≤ b → b < n → f a = true → f b = true) :
    goSearch n f ≤ n ∧ (∀ k, k < goSearch n f → f k = false) ∧
      (goSearch n f < n → f (goSearch n f) = true) := by
  have h := goSearchAux_spec f n mono n 0 n (by omega) (by omega) le_rfl
    (fun k hk => absurd hk (Nat.not_lt_zero k))
    (fun k hk1 hk2 => absurd hk1 (by omega))
  exact ⟨h.2.1, h.2.2.1, h.2.2.2⟩

/-- In a `≤`-sorted list, `getD` (with default 0) is monotone below the
length. -/
theorem sorted_getD_mono (l : List Nat) (hs : l.Chain' (· ≤ ·)) :
    ∀ a b, a ≤ b → b < l.length → l.getD a 0 ≤ l.getD b 0 := by
  intro a b hab hb
  rcases Nat.eq_or_lt_of_le hab with he | hlt
  · subst he; exact le_rfl
  · have ha : a < l.length := by omega
    have hp := List.chain'_iff_pairwise.mp hs
    have := List.pairwise_iff_get.mp hp ⟨a, ha⟩ ⟨b, hb⟩ hlt
    rw [List.getD_eq_getElem?_getD, List.getD_eq_getElem?_getD,
      List.getElem?_eq_getElem ha, List.getElem?_eq_getElem hb]
    simpa using this

theorem goSearchAux_le (f : Nat → Bool) :
    ∀ (d i j : Nat), j - i ≤ d → i ≤ j → goSearchAux f i j ≤ j := by
  intro d
  induction d with
  | zero =>
    intro i j hd hij
    have hije : i = j := by omega
    subst hije
    rw [goSearchAux, dif_neg (lt_irrefl i)]
  | succ d ih =>
    intro i j hd hij
    rw [goSearchAux]
    by_cases hlt : i < j
    · rw [dif_pos hlt]
      cases hf : f ((i + j) / 2) with
      | true =>
        rw [if_pos (by rw [hf])]
        exact le_trans (ih i ((i + j) / 2) (by omega) (by omega)) (by omega)
      | false =>
        rw [if_neg (by rw [hf]; simp)]
        exact ih ((i + j) / 2 + 1) j (by omega) (by omega)
    · rw [dif_neg hlt]
      exact hij

/-- Definition `getHostIndex` unfolded to its search-and-wrap form. -/
theorem getHostIndex_def (hashf : HashMethod) (hosts : List (List Char))
    (index : List Nat) (key : List Char) :
    getHostIndex hashf (hosts, index) key =
      index.getD
        (if goSearch index.length
            (fun k => decide (hashf key * 2 ^ 32 ≤ index.getD k 0)) = index.length then 0
          else goSearch index.length
            (fun k => decide (hashf key * 2 ^ 32 ≤ index.getD k 0))) 0 % 2 ^ 32 := rfl

/-- The wrapped search result stays below the (positive) ring length. -/
theorem getHostIndex_lt (hashf : HashMethod) (hosts : List (List Char))
    (index : List Nat) (key : List Char) (hne : index ≠ [])
    (hwf : ∀ e ∈ index, e % 2 ^ 32 < hosts.length) :
    getHostIndex hashf (hosts, index) key < hosts.length := by
  rw [getHostIndex_def]
  have hN : 0 < index.length := List.length_pos.mpr hne
  have hle : goSearch index.length
      (fun k => decide (hashf key * 2 ^ 32 ≤ index.getD k 0)) ≤ index.length :=
    goSearchAux_le _ index.length 0 index.length (by omega) (by omega)
  set r := goSearch index.length (fun k => decide (hashf key * 2 ^ 32 ≤ index.getD k 0))
  have hlt : (if r = index.length then 0 else r) < index.length := by
    by_cases he : r = index.length
    · rw [if_pos he]; exact hN
    · rw [if_neg he]; omega
  apply hwf
  rw [List.getD_eq_getElem?_getD, List.getElem?_eq_getElem hlt]
  exact List.getElem_mem hlt

/-- Go `ConsistantHashScheduler.GetHostsByKey` returns exactly the singleton of
the ring-owner host. -/
theorem chGetHostsByKey_eq (hashf : HashMethod) (hosts : List (List Char))
    (index : List Nat) (key : List Char) (hne : index ≠ [])
    (hwf : ∀ e ∈ index, e % 2 ^ 32 < hosts.length) :
    chGetHostsByKey hashf (hosts, index) key =
      some [hosts.getD (getHostIndex hashf (hosts, index) key) []] := by
  unfold chGetHostsByKey
  have hlt := getHostIndex_lt hashf hosts index key hne hwf
  rw [List.get?_eq_getElem?, List.getElem?_eq_getElem hlt]
  rw [List.getD_eq_getElem?_getD, List.getElem?_eq_getElem hlt]
  rfl

/-! ### Ring construction lemmas -/

theorem chEntries_some (hashf : HashMethod) :
    ∀ (hosts : List (List Char)) (i : Nat), (∀ h ∈ hosts, ':' ∈ h) →
      ∃ es, chEntries hashf i hosts = some es ∧
        es.length = VIRTUAL_NODES * hosts.length ∧
        ∀ e ∈ es, ∃ v k, e = v * 2 ^ 32 + k ∧ i ≤ k ∧ k < i + hosts.length := by
  intro hosts
  induction hosts with
  | nil =>
    intro i _
    exact ⟨[], rfl, by simp, by simp⟩
  | cons h hs ih =>
    intro i hc
    have hcol : ':' ∈ h := hc h (List.mem_cons_self h hs)
    obtain ⟨host, port, hsplit⟩ : ∃ host port, splitN2 h ':' = [host, port] := by
      unfold splitN2
      rw [List.span_eq_take_drop]
      cases hd : h.dropWhile (fun c => c != ':') with
      | nil =>
        exfalso
        have := List.dropWhile_eq_nil_iff.mp hd ':' hcol
        simp at this
      | cons a rest => exact ⟨_, _, rfl⟩
    obtain ⟨rest, hrest, hlen, hwf⟩ := ih (i + 1) (fun x hx => hc x (List.mem_cons_of_mem _ hx))
    refine ⟨((List.range VIRTUAL_NODES).map fun j =>
        (if port = str "11211" then hashf (host ++ '-' :: Nat.toDigits 10 j)
         else hashf (h ++ '-' :: Nat.toDigits 10 j)) * 2 ^ 32 + i) ++ rest, ?_, ?_, ?_⟩
    · simp only [chEntries, hsplit, hrest]
    · simp only [List.length_append, List.length_map, List.length_range, hlen,
        List.length_cons]
      ring
    · intro e he
      rcases List.mem_append.mp he with hmap | hrest2
      · obtain ⟨j, _, hj⟩ := List.mem_map.mp hmap
        refine ⟨_, i, hj.symm, le_rfl, by simp⟩
      · obtain ⟨v, k, hvk, h1k, hk⟩ := hwf e hrest2
        exact ⟨v, k, hvk, by omega, by simp [List.length_cons]; omega⟩

theorem chEntries_none (hashf : HashMethod) :
    ∀ (hosts : List (List Char)) (i : Nat), (∃ h ∈ hosts, ':' ∉ h) →
      chEntries hashf i hosts = none := by
  intro hosts
  induction hosts with
  | nil =>
    rintro i ⟨h, hmem, _⟩
    cases hmem
  | cons h hs ih =>
    rintro i ⟨b, hbmem, hbc⟩
    rcases List.mem_cons.mp hbmem with he | hbtail
    · subst he
      have hd : b.dropWhile (fun c => c != ':') = [] := by
        rw [List.dropWhile_eq_nil_iff]
        intro x hx
        simp only [bne_iff_ne, ne_eq, decide_eq_true_eq]
        intro he2
        exact hbc (he2 ▸ hx)
      simp only [chEntries, splitN2, List.span_eq_take_drop, hd]
    · by_cases hcolh : ':' ∈ h
      · obtain ⟨host, port, hsplit⟩ : ∃ host port, splitN2 h ':' = [host, port] := by
          unfold splitN2
          rw [List.span_eq_take_drop]
          cases hd : h.dropWhile (fun c => c != ':') with
          | nil =>
            exfalso
            have := List.dropWhile_eq_nil_iff.mp hd ':' hcolh
            simp at this
          | cons a rest => exact ⟨_, _, rfl⟩
        simp only [chEntries, hsplit, ih (i + 1) ⟨b, hbtail, hbc⟩]
      · have hd : h.dropWhile (fun c => c != ':') = [] := by
          rw [List.dropWhile_eq_nil_iff]
          intro x hx
          simp only [bne_iff_ne, ne_eq, decide_eq_true_eq]
          intro he2
          exact hcolh (he2 ▸ hx)
        simp only [chEntries, splitN2, List.span_eq_take_drop, hd]

theorem isSortedLeB_iff : ∀ l : List Nat, isSortedLeB l = true ↔ l.Chain' (· ≤ ·) := by
  intro l
  induction l with
  | nil => simp [isSortedLeB]
  | cons a t ih =>
    cases t with
    | nil => simp [isSortedLeB]
    | cons b t2 =>
      rw [isSortedLeB, List.chain'_cons, Bool.and_eq_true, decide_eq_true_eq, ih]

/-- Successful construction of the consistent-hash ring: for every address list
with colons the constructor returns a scheduler whose ring is sorted, has
`100 · n` entries, all of the packed `(v << 32) + hostIdx` form. -/
theorem newCHS_spec (hashf : HashMethod) (hosts : List (List Char))
    (hc : ∀ h ∈ hosts, ':' ∈ h) :
    ∃ c, newConsistantHashScheduler hashf hosts = some c ∧ c.1 = hosts ∧
      c.2.Chain' (· ≤ ·) ∧ c.2.length = VIRTUAL_NODES * hosts.length ∧
      ∀ e ∈ c.2, ∃ v k, e = v * 2 ^ 32 + k ∧ k < hosts.length := by
  obtain ⟨es, hes, hlen, hwf⟩ := chEntries_some hashf hosts 0 hc
  have hsorted : (sortIndex es).Chain' (· ≤ ·) := by
    rw [List.chain'_iff_pairwise]
    exact List.sorted_insertionSort (· ≤ ·) es
  have hcheck : isSortedLeB (sortIndex es) = true := (isSortedLeB_iff _).mpr hsorted
  refine ⟨(hosts, sortIndex es), ?_, rfl, hsorted, ?_, ?_⟩
  · simp only [newConsistantHashScheduler, hes, hcheck, if_true]
  · rw [show (sortIndex es).length = es.length from
      List.length_insertionSort (· ≤ ·) es, hlen]
  · intro e he
    have hees : e ∈ es := (List.perm_insertionSort (· ≤ ·) es).mem_iff.mp he
    obtain ⟨v, k, hvk, h0k, hk⟩ := hwf e hees
    exact ⟨v, k, hvk, by omega⟩

theorem newCHS_none (hashf : HashMethod) (hosts : List (List Char))
    (hbad : ∃ h ∈ hosts, ':' ∉ h) :
    newConsistantHashScheduler hashf hosts = none := by
  simp only [newConsistantHashScheduler, chEntries_none hashf hosts 0 hbad]

/-- Packed entries expose their host index as their low 32 bits, as long as
there are at most `2^32` hosts. -/
theorem packed_mod (v k n : Nat) (hk : k < n) (hn : n ≤ 2 ^ 32) :
    (v * 2 ^ 32 + k) % 2 ^ 32 = k := by
  rw [Nat.add_comm, Nat.add_mul_mod_self_right]
  exact Nat.mod_eq_of_lt (by omega)

/-! ### Key partition lemmas -/

theorem divideKeys_foldl_length (owner : List Char → Nat) :
    ∀ (keys : List (List Char)) (rs : List (List (List Char))),
      (keys.foldl (fun rs key => rs.set (owner key) (rs.getD (owner key) [] ++ [key]))
        rs).length = rs.length := by
  intro keys
  induction keys with
  | nil => intro rs; rfl
  | cons k t ih =>
    intro rs
    rw [List.foldl_cons, ih, List.length_set]

theorem divideKeys_foldl_getD (owner : List Char → Nat) :
    ∀ (keys : List (List Char)) (rs : List (List (List Char))) (b : Nat),
      b < rs.length → (∀ k ∈ keys, owner k < rs.length) →
      (keys.foldl (fun rs key => rs.set (owner key) (rs.getD (owner key) [] ++ [key]))
          rs).getD b []
        = rs.getD b [] ++ keys.filter (fun k => owner k == b) := by
  intro keys
  induction keys with
  | nil => intro rs b hb _; simp
  | cons k t ih =>
    intro rs b hb hko
    rw [List.foldl_cons, List.filter_cons]
    have hownk : owner k < rs.length := hko k (List.mem_cons_self k t)
    have hlen2 : (rs.set (owner k) (rs.getD (owner k) [] ++ [k])).length = rs.length :=
      List.length_set rs _ _
    have htail : ∀ x ∈ t,
        owner x < (rs.set (owner k) (rs.getD (owner k) [] ++ [k])).length := by
      rw [hlen2]
      exact fun x hx => hko x (List.mem_cons_of_mem _ hx)
    rw [ih (rs.set (owner k) (rs.getD (owner k) [] ++ [k])) b (by omega) htail]
    by_cases hob : owner k = b
    · subst hob
      rw [getD_set_self' rs _ _ [] hownk, if_pos (by simp)]
      simp
    · rw [getD_set_ne' rs _ b _ [] (fun he => hob he), if_neg (by simp [hob])]

/-- Function `divideKeys` is exactly the per-bucket filter of the key list: group `b`
holds the keys owned by `b`, in their original relative order. -/
theorem divideKeys_spec (owner : List Char → Nat) (n : Nat) (keys : List (List Char))
    (hko : ∀ k ∈ keys, owner k < n) :
    (divideKeys owner n keys).length = n ∧
      ∀ b, b < n →
        (divideKeys owner n keys).getD b [] = keys.filter (fun k => owner k == b) := by
  unfold divideKeys
  constructor
  · rw [divideKeys_foldl_length, List.length_replicate]
  · intro b hb
    rw [divideKeys_foldl_getD owner keys (List.replicate n []) b
      (by rw [List.length_replicate]; exact hb)
      (by rw [List.length_replicate]; exact hko)]
    rw [getD_replicate' n b [] [] hb]
    rfl

theorem divideKeys_eq_map (owner : List Char → Nat) (n : Nat) (keys : List (List Char))
    (hko : ∀ k ∈ keys, owner k < n) :
    divideKeys owner n keys =
      (List.range n).map (fun b => keys.filter (fun k => owner k == b)) := by
  obtain ⟨hlen, hgd⟩ := divideKeys_spec owner n keys hko
  apply List.ext_getElem?
  intro b
  by_cases hb : b < n
  · rw [List.getElem?_eq_getElem (by omega : b < (divideKeys owner n keys).length),
      List.getElem?_eq_getElem (by simp [hb] : b < ((List.range n).map
        (fun b => keys.filter (fun k => owner k == b))).length)]
    have h1 := hgd b hb
    rw [List.getD_eq_getElem?_getD, List.getElem?_eq_getElem
      (by omega : b < (divideKeys owner n keys).length)] at h1
    simp only [Option.getD_some] at h1
    rw [h1]
    congr 1
    rw [List.getElem_map, List.getElem_range]
  · rw [List.getElem?_eq_none (by omega : (divideKeys owner n keys).length ≤ b),
      List.getElem?_eq_none (by simp; omega : ((List.range n).map
        (fun b => keys.filter (fun k => owner k == b))).length ≤ b)]

theorem flatten_filters_perm (owner : List Char → Nat) (n : Nat) :
    ∀ keys : List (List Char), (∀ k ∈ keys, owner k < n) →
      (((List.range n).map (fun b =>
        keys.filter (fun k => owner k == b))).flatten).Perm keys := by
  intro keys
  induction keys with
  | nil => intro _; simp
  | cons k t ih =>
    intro hko
    have hb0 : owner k < n := hko k (List.mem_cons_self k t)
    have hsplit : List.range n =
        List.range' 0 (owner k) ++ owner k ::
          List.range' (owner k + 1) (n - owner k - 1) := by
      rw [List.range_eq_range']
      have h1 := List.range'_append 0 (owner k) (n - owner k) 1
      rw [show 0 + 1 * owner k = owner k by omega,
        show n - owner k + owner k = n by omega] at h1
      rw [← h1]
      congr 1
      rw [show n - owner k = (n - owner k - 1) + 1 by omega, List.range'_succ]
      norm_num
    have hlow : (List.range' 0 (owner k)).map
          (fun b => (k :: t).filter (fun x => owner x == b))
        = (List.range' 0 (owner k)).map (fun b => t.filter (fun x => owner x == b)) := by
      apply List.map_congr_left
      intro b hb
      have hbr := List.mem_range'_1.mp hb
      rw [List.filter_cons, if_neg (by simp; omega)]
    have hhigh : (List.range' (owner k + 1) (n - owner k - 1)).map
          (fun b => (k :: t).filter (fun x => owner x == b))
        = (List.range' (owner k + 1) (n - owner k - 1)).map
          (fun b => t.filter (fun x => owner x == b)) := by
      apply List.map_congr_left
      intro b hb
      have hbr := List.mem_range'_1.mp hb
      rw [List.filter_cons, if_neg (by simp; omega)]
    have hmid : (k :: t).filter (fun x => owner x == owner k)
        = k :: t.filter (fun x => owner x == owner k) := by
      rw [List.filter_cons, if_pos (by simp)]
    have iht := ih (fun x hx => hko x (List.mem_cons_of_mem _ hx))
    rw [hsplit, List.map_append, List.map_cons, List.flatten_append, List.flatten_cons]
      at iht ⊢
    rw [hlow, hhigh, hmid]
    rw [List.cons_append]
    exact List.Perm.trans List.perm_middle (iht.cons k)

/-- Flattening the groups gives back a permutation of the key list. -/
theorem divideKeys_flatten_perm (owner : List Char → Nat) (n : Nat)
    (keys : List (List Char)) (hko : ∀ k ∈ keys, owner k < n) :
    ((divideKeys owner n keys).flatten).Perm keys := by
  rw [divideKeys_eq_map owner n keys hko]
  exact flatten_filters_perm owner n keys hko

/-! ### GetHostsByKey helper lemmas -/

theorem fnv1a1_lt (s : List Char) : fnv1a1 s < 2 ^ 32 := by
  unfold fnv1a1
  suffices h : ∀ (acc : Nat), acc < 2 ^ 32 →
      s.foldl (fun h c => ((h ^^^ c.toNat % 256) * 16777619) % 2 ^ 32) acc < 2 ^ 32 by
    exact h 2166136261 (by norm_num)
  induction s with
  | nil => intro acc hacc; exact hacc
  | cons c t ih =>
    intro acc _
    rw [List.foldl_cons]
    exact ih _ (Nat.mod_lt _ (by norm_num))

/-- For a power-of-two bucket count `2^w` with `w ≤ 31` and a `uint32` hash
method, `getBucketByKey` always lands in `[0, 2^w)`. -/
theorem getBucketByKey_range (hashf : HashMethod) (hb : ∀ k, hashf k < 2 ^ 32)
    (w : Nat) (hw : w ≤ 31) (key : List Char) :
    0 ≤ getBucketByKey hashf (2 ^ w) key ∧
      (getBucketByKey hashf (2 ^ w) key).toNat < 2 ^ w := by
  rw [getBucketByKey_cases hashf w (by omega) (by omega) key]
  by_cases hcond : key.length > w / 4 ∧ key.headD ' ' = '@'
  · rw [if_pos hcond]
    have hlen : ((key.drop 1).take (w / 4)).length ≤ 7 := by
      have h1 : ((key.drop 1).take (w / 4)).length ≤ w / 4 := by
        rw [List.length_take]
        omega
      omega
    obtain ⟨heq, h0, hlt⟩ := hextoi_exact _ hlen
    rw [heq]
    refine ⟨h0, ?_⟩
    have h16 : (16 : Int) ^ ((key.drop 1).take (w / 4)).length ≤ 16 ^ (w / 4) :=
      pow_le_pow_right₀ (by norm_num) (by rw [List.length_take]; omega)
    have h2w : (16 : Int) ^ (w / 4) ≤ 2 ^ w := by
      rw [show (16 : Int) = 2 ^ 4 by norm_num, ← pow_mul]
      exact pow_le_pow_right₀ (by norm_num) (by omega)
    have hfin : hexParse ((key.drop 1).take (w / 4)) < (2 : Int) ^ w := by linarith
    have hc : ((hexParse ((key.drop 1).take (w / 4))).toNat : Int) < ((2 ^ w : Nat) : Int) := by
      rw [Int.toNat_of_nonneg h0]
      push_cast
      linarith
    exact_mod_cast hc
  · rw [if_neg hcond]
    constructor
    · exact Int.natCast_nonneg _
    · rw [Int.toNat_natCast, Nat.shiftRight_eq_div_pow]
      rw [Nat.div_lt_iff_lt_mul (by positivity)]
      calc hashf _ < 2 ^ 32 := hb _
        _ = 2 ^ w * 2 ^ (32 - w) := by rw [← pow_add]; congr 1; omega

/-- Mapping with `mapM` over `Option` respects pointwise equality on the list. -/
theorem mapM_congr_option {α β : Type} (f g : α → Option β) :
    ∀ l : List α, (∀ a ∈ l, f a = g a) → l.mapM f = l.mapM g := by
  intro l
  induction l with
  | nil => intro _; rfl
  | cons a t ih =>
    intro h
    rw [List.mapM_cons, List.mapM_cons, h a (List.mem_cons_self a t),
      ih (fun x hx => h x (List.mem_cons_of_mem _ hx))]

theorem mapM_get_offset {α : Type} :
    ∀ (l front : List α),
      (List.range' front.length l.length).mapM (fun j => (front ++ l).get? j) = some l := by
  intro l
  induction l with
  | nil => intro front; rfl
  | cons x t ih =>
    intro front
    rw [List.length_cons, List.range'_succ, List.mapM_cons]
    have hget : (front ++ x :: t).get? front.length = some x := by
      rw [List.get?_eq_getElem?, List.getElem?_append_right le_rfl]
      simp
    have ihx := ih (front ++ [x])
    have hlen1 : (front ++ [x]).length = front.length + 1 := by simp
    rw [hlen1, List.append_assoc, List.singleton_append] at ihx
    rw [hget, ihx]
    rfl

theorem range_mapM_get {α : Type} (l : List α) :
    (List.range l.length).mapM (fun j => l.get? j) = some l := by
  have h := mapM_get_offset l []
  simpa [List.range_eq_range'] using h

/-- A freshly constructed `AutoScheduler` returns the full host list, in
construction order, for every key (the initial preference order of every
bucket is the identity permutation). -/
theorem autoGetHostsByKey_fresh (hashf : HashMethod) (hb : ∀ k, hashf k < 2 ^ 32)
    (hosts : List (List Char)) (w : Nat) (hw : w ≤ 31) (key : List Char) :
    autoGetHostsByKey hashf hosts (newAutoState hosts.length (2 ^ w)) key = some hosts := by
  obtain ⟨h0, hlt⟩ := getBucketByKey_range hashf hb w hw key
  unfold autoGetHostsByKey newAutoState
  simp only [List.length_replicate]
  rw [if_pos ⟨h0, hlt⟩]
  rw [getD_replicate' _ _ _ [] hlt]
  have hcongr : ∀ j ∈ List.range hosts.length,
      ((List.range hosts.length).get? j).bind (fun hIdx => hosts.get? hIdx)
        = hosts.get? j := by
    intro j hj
    rw [List.get?_eq_getElem?, List.getElem?_range (List.mem_range.mp hj)]
    rfl
  rw [mapM_congr_option _ _ _ hcongr, range_mapM_get hosts]

theorem foldl_set_length {α : Type} (g : Nat → Nat) (vals : Nat → α) :
    ∀ (js : List Nat) (hs : List α),
      (js.foldl (fun hs j => hs.set (g j) (vals j)) hs).length = hs.length := by
  intro js
  induction js with
  | nil => intro hs; rfl
  | cons j t ih => intro hs; rw [List.foldl_cons, ih, List.length_set]

/-- Go `ManualScheduler.GetHostsByKey` succeeds with a full-bucket-size result
whenever the key's bucket index is in range and the bucket is non-empty. -/
theorem manualGetHostsByKey_some (c : List (List Char) × List (List (List Char)))
    (key : List Char)
    (hi0 : 0 ≤ getBucketByKey fnv1a1 c.2.length key)
    (hilt : (getBucketByKey fnv1a1 c.2.length key).toNat < c.2.length)
    (hbn : (c.2.getD (getBucketByKey fnv1a1 c.2.length key).toNat []).length % 2 ^ 32 ≠ 0) :
    ∃ l, manualGetHostsByKey c key = some l ∧
      l.length = (c.2.getD (getBucketByKey fnv1a1 c.2.length key).toNat []).length := by
  unfold manualGetHostsByKey
  rw [if_pos ⟨hi0, hilt⟩, if_neg hbn]
  refine ⟨_, rfl, ?_⟩
  rw [foldl_set_length]
  exact List.length_replicate _ _

/-! ### Probe-parsing helper lemmas -/

theorem span_sep_free (sep : Char) :
    ∀ (a rest : List Char), sep ∉ a →
      ((a ++ sep :: rest).takeWhile (fun c => c != sep) = a ∧
        (a ++ sep :: rest).dropWhile (fun c => c != sep) = sep :: rest) := by
  intro a
  induction a with
  | nil =>
    intro rest _
    constructor
    · rw [List.nil_append, List.takeWhile_cons, if_neg (by simp)]
    · rw [List.nil_append, List.dropWhile_cons, if_neg (by simp)]
  | cons c t ih =>
    intro rest hna
    have hc : (c != sep) = true := by
      simp only [bne_iff_ne, ne_eq]
      exact fun he => hna (he ▸ List.mem_cons_self c t)
    obtain ⟨iht, ihd⟩ := ih rest (fun hm => hna (List.mem_cons_of_mem _ hm))
    constructor
    · rw [List.cons_append, List.takeWhile_cons, if_pos hc, iht]
    · rw [List.cons_append, List.dropWhile_cons, if_pos hc, ihd]

theorem splitNChar_cons_of_sep_free (sep : Char) (a rest : List Char) (hna : sep ∉ a)
    (n : Nat) :
    splitNChar sep (n + 2) (a ++ sep :: rest) = a :: splitNChar sep (n + 1) rest := by
  obtain ⟨ht, hd⟩ := span_sep_free sep a rest hna
  simp only [splitNChar, List.span_eq_take_drop, ht, hd]

theorem splitNChar_no_sep (sep : Char) (s : List Char) (hn : sep ∉ s) (n : Nat) :
    splitNChar sep (n + 2) s = [s] := by
  have hd : s.dropWhile (fun c => c != sep) = [] := by
    rw [List.dropWhile_eq_nil_iff]
    intro x hx
    simp only [bne_iff_ne, ne_eq, decide_eq_true_eq]
    exact fun he => hn (he ▸ hx)
  have ht : s.takeWhile (fun c => c != sep) = s := by
    have h := List.takeWhile_append_dropWhile (p := fun c => c != sep) (l := s)
    rw [hd, List.append_nil] at h
    exact h
  simp only [splitNChar, List.span_eq_take_drop, hd, ht]

/-- A well-shaped probe record `<name> <flags> <count>` (second byte of the
name a slash, no spaces inside the fields) always produces exactly one
feedback, keyed `dir ++ name`, with adjust `Sqrt` of the parsed count — where a
parse failure contributes count 0, not a skip. -/
theorem listHostLine_record (sqrtF : ℚ → ℚ) (dir name flags cnt : List Char)
    (hn : ' ' ∉ name) (hf : ' ' ∉ flags) (hc : ' ' ∉ cnt)
    (hlen : 1 < name.length) (hslash : name.getD 1 ' ' = '/') :
    listHostLine sqrtF dir (name ++ ' ' :: (flags ++ ' ' :: cnt)) =
      some (dir ++ name, sqrtF ((goParseFloat cnt).getD 0)) := by
  have hcount : (name ++ ' ' :: (flags ++ ' ' :: cnt)).count ' ' = 2 := by
    rw [List.count_append, List.count_cons, List.count_append, List.count_cons]
    rw [List.count_eq_zero.mpr hn, List.count_eq_zero.mpr hf, List.count_eq_zero.mpr hc]
    simp
  have hget : (name ++ ' ' :: (flags ++ ' ' :: cnt)).getD 1 ' ' = '/' := by
    rw [List.getD_eq_getElem?_getD, List.getElem?_append_left hlen,
      ← List.getD_eq_getElem?_getD]
    exact hslash
  have hvv : splitNChar ' ' 3 (name ++ ' ' :: (flags ++ ' ' :: cnt))
      = [name, flags, cnt] := by
    rw [show (3 : Nat) = 1 + 2 from rfl,
      splitNChar_cons_of_sep_free ' ' name (flags ++ ' ' :: cnt) hn 1,
      show (1 + 1 : Nat) = 0 + 2 from rfl,
      splitNChar_cons_of_sep_free ' ' flags cnt hf 0]
    rfl
  unfold listHostLine
  rw [if_neg (by rw [hcount, hget]; simp), hvv]
  rfl

/-! ### Feedback step lemmas -/

theorem feedback_unfold (stats : List ℚ) (order : List Nat) (i : Nat) (adjust : ℚ)
    (r : List Nat) (hd : order.dropWhile (fun a => a != i) = i :: r) :
    feedback (stats, order) i adjust =
      (stats.set i (if 0 ≤ adjust then (stats.getD i 0 + adjust) / 2
          else stats.getD i 0 + adjust),
        if 0 < (if 0 ≤ adjust then (stats.getD i 0 + adjust) / 2
            else stats.getD i 0 + adjust) - stats.getD i 0 then
          bubbleUp (fun h => (stats.set i (if 0 ≤ adjust then (stats.getD i 0 + adjust) / 2
            else stats.getD i 0 + adjust)).getD h 0) i r
            (order.takeWhile (fun a => a != i)).reverse
        else
          order.takeWhile (fun a => a != i) ++
            bubbleDown (fun h => (stats.set i (if 0 ≤ adjust then (stats.getD i 0 + adjust) / 2
              else stats.getD i 0 + adjust)).getD h 0) i r) := by
  simp only [feedback, List.span_eq_take_drop, hd]
  split <;> split <;> rfl

theorem feedback_unfold_absent (stats : List ℚ) (order : List Nat) (i : Nat) (adjust : ℚ)
    (hd : order.dropWhile (fun a => a != i) = []) :
    feedback (stats, order) i adjust =
      (stats.set i (if 0 ≤ adjust then (stats.getD i 0 + adjust) / 2
          else stats.getD i 0 + adjust),
        order.takeWhile (fun a => a != i)) := by
  simp only [feedback, List.span_eq_take_drop, hd]

/-- The preference order after a feedback application is a permutation of the
order before it (the bubble loops only swap adjacent elements). -/
theorem feedback_perm (stats : List ℚ) (order : List Nat) (i : Nat) (adjust : ℚ) :
    ((feedback (stats, order) i adjust).2).Perm order := by
  cases hd : order.dropWhile (fun a => a != i) with
  | nil =>
    rw [feedback_unfold_absent stats order i adjust hd]
    have : order.takeWhile (fun a => a != i) = order := by
      conv_rhs => rw [← List.takeWhile_append_dropWhile (p := fun a => a != i) (l := order)]
      rw [hd, List.append_nil]
    rw [this]
  | cons x r =>
    have hx : x = i := by
      have hhead := List.head?_dropWhile_not (fun a => a != i) order
      rw [hd] at hhead
      simpa using hhead
    subst hx
    rw [feedback_unfold stats order x adjust r hd]
    have hdecomp : order = order.takeWhile (fun a => a != x) ++ x :: r := by
      rw [← hd, List.takeWhile_append_dropWhile]
    have hup : ∀ w : Nat → ℚ,
        (bubbleUp w x r (order.takeWhile (fun a => a != x)).reverse).Perm order := by
      intro w
      refine (bubbleUp_perm w x _ _).trans ?_
      conv_rhs => rw [hdecomp]
      refine List.Perm.trans (List.Perm.cons x ?_) List.perm_middle.symm
      exact List.perm_append_comm.trans ((List.reverse_perm _).append_right _)
    have hdown : ∀ w : Nat → ℚ,
        (order.takeWhile (fun a => a != x) ++ bubbleDown w x r).Perm order := by
      intro w
      conv_rhs => rw [hdecomp]
      exact (bubbleDown_perm w x r).append_left _
    dsimp only
    split <;> split <;> first
      | exact hup _
      | exact hdown _

/-- Core invariant-preservation lemma: one `feedback` application on a bucket
whose preference order is sorted by descending weight (and is duplicate-free
and contains the adjusted host) leaves it sorted by descending weight for the
updated weights. -/
theorem feedback_step_sorted (stats : List ℚ) (order : List Nat) (i : Nat) (adjust : ℚ)
    (hi : i < stats.length) (hnd : order.Nodup) (hmem : i ∈ order)
    (hs : sortedDesc (fun h => stats.getD h 0) order) :
    sortedDesc (fun h => (feedback (stats, order) i adjust).1.getD h 0)
      (feedback (stats, order) i adjust).2 := by
  obtain ⟨r, hd, hdecomp, hnotin⟩ := dropWhile_mem_decomp i order hmem
  set pre := order.takeWhile (fun a => a != i) with hpre
  set old := stats.getD i 0 with hold
  set nw := (if 0 ≤ adjust then (stats.getD i 0 + adjust) / 2 else stats.getD i 0 + adjust)
    with hnw
  have hndr : i ∉ r := by
    rw [hdecomp] at hnd
    exact (List.nodup_cons.mp hnd.of_append_right).1
  have hprene : ∀ a ∈ pre, a ≠ i := fun a ha he => hnotin (he ▸ ha)
  have hrne : ∀ a ∈ r, a ≠ i := fun a ha he => hndr (he ▸ ha)
  have hw_ne : ∀ j, j ≠ i → (stats.set i nw).getD j 0 = stats.getD j 0 :=
    fun j hj => getD_set_ne' stats i j nw 0 (fun he => hj he.symm)
  have hw_i : (stats.set i nw).getD i 0 = nw := getD_set_self' stats i nw 0 hi
  rw [hdecomp] at hs
  dsimp only [sortedDesc] at hs ⊢
  obtain ⟨hcpre, hcir, hlink⟩ := List.chain'_append.mp hs
  have hcr : r.Chain' (fun a b => stats.getD b 0 ≤ stats.getD a 0) :=
    (List.chain'_cons'.mp hcir).2
  have hhr : ∀ z ∈ r.head?, stats.getD z 0 ≤ old := (List.chain'_cons'.mp hcir).1
  have hcpre2 : pre.Chain'
      (fun a b => (stats.set i nw).getD b 0 ≤ (stats.set i nw).getD a 0) := by
    refine chain'_congr_on _ _ pre ?_ hcpre
    intro a ha b hb hR
    rw [hw_ne a (hprene a ha), hw_ne b (hprene b hb)]
    exact hR
  have hcr2 : r.Chain'
      (fun a b => (stats.set i nw).getD b 0 ≤ (stats.set i nw).getD a 0) := by
    refine chain'_congr_on _ _ r ?_ hcr
    intro a ha b hb hR
    rw [hw_ne a (hrne a ha), hw_ne b (hrne b hb)]
    exact hR
  rw [feedback_unfold stats order i adjust r hd]
  dsimp only
  rw [← hnw, ← hpre, ← hold]
  by_cases hc : 0 < nw - old
  · rw [if_pos hc]
    have holdnw : old < nw := by linarith
    apply bubbleUp_sorted
    · rw [List.reverse_reverse]
      exact hcpre2
    · rw [List.chain'_cons']
      refine ⟨?_, hcr2⟩
      intro z hz
      have hzr : z ∈ r := List.mem_of_mem_head? hz
      rw [hw_i, hw_ne z (hrne z hzr)]
      have h1 : stats.getD z 0 ≤ old := hhr z hz
      linarith
    · intro y hy z hz
      have hyp : y ∈ pre := by
        have := List.mem_of_mem_head? hy
        rwa [List.mem_reverse] at this
      have hzr : z ∈ r := List.mem_of_mem_head? hz
      rw [hw_ne y (hprene y hyp), hw_ne z (hrne z hzr)]
      have h1 : stats.getD z 0 ≤ old := hhr z hz
      have h2 : old ≤ stats.getD y 0 := by
        refine hlink y ?_ i ?_
        · rw [← List.head?_reverse]; exact hy
        · simp
      linarith
  · rw [if_neg hc]
    have hnwold : nw ≤ old := by
      rw [not_lt] at hc
      linarith
    rw [List.chain'_append]
    refine ⟨hcpre2, bubbleDown_sorted _ _ _ hcr2, ?_⟩
    intro a ha b hb
    have hap : a ∈ pre := List.mem_of_mem_getLast? ha
    have halink : old ≤ stats.getD a 0 := hlink a ha i (by simp)
    have hwa : (stats.set i nw).getD a 0 = stats.getD a 0 := hw_ne a (hprene a hap)
    rcases bubbleDown_head (fun h => (stats.set i nw).getD h 0) i r with hh | hh
    · rw [hh] at hb
      simp only [Option.mem_def, Option.some.injEq] at hb
      subst hb
      rw [hwa, hw_i]
      linarith
    · rw [hh] at hb
      have hbr : b ∈ r := List.mem_of_mem_head? hb
      rw [hwa, hw_ne b (hrne b hbr)]
      have h1 : stats.getD b 0 ≤ old := hhr b hb
      linarith

theorem feedback_length (stats : List ℚ) (order : List Nat) (i : Nat) (adjust : ℚ) :
    (feedback (stats, order) i adjust).1.length = stats.length := by
  cases hd : order.dropWhile (fun a => a != i) with
  | nil => rw [feedback_unfold_absent stats order i adjust hd, List.length_set]
  | cons x r =>
    have hx : x = i := by
      have hhead := List.head?_dropWhile_not (fun a => a != i) order
      rw [hd] at hhead
      simpa using hhead
    subst hx
    rw [feedback_unfold stats order x adjust r hd, List.length_set]

theorem dropWhile_head_eq (i : Nat) (order : List Nat) (x : Nat) (r : List Nat)
    (hd : order.dropWhile (fun a => a != i) = x :: r) : x = i := by
  have hhead := List.head?_dropWhile_not (fun a => a != i) order
  rw [hd] at hhead
  simpa using hhead

/-- The weight stored for host `i` after one feedback application: the
`(w+adjust)/2` / `w+adjust` update rule from `AutoScheduler.feedback`. -/
theorem feedback_weight (stats : List ℚ) (order : List Nat) (i : Nat) (adjust : ℚ)
    (hi : i < stats.length) :
    (feedback (stats, order) i adjust).1.getD i 0 =
      if 0 ≤ adjust then (stats.getD i 0 + adjust) / 2 else stats.getD i 0 + adjust := by
  cases hd : order.dropWhile (fun a => a != i) with
  | nil =>
    rw [feedback_unfold_absent stats order i adjust hd]
    exact getD_set_self' _ _ _ _ hi
  | cons x r =>
    have hx := dropWhile_head_eq i order x r hd
    subst hx
    rw [feedback_unfold stats order x adjust r hd]
    exact getD_set_self' _ _ _ _ hi

/-- When a feedback application strictly increases the host's weight, its
position in the preference order does not move toward the back. -/
theorem feedback_pos_nonincrease (stats : List ℚ) (order : List Nat) (i : Nat)
    (adjust : ℚ) (hi : i < stats.length) (hnd : order.Nodup) (hmem : i ∈ order)
    (hinc : stats.getD i 0 < (feedback (stats, order) i adjust).1.getD i 0) :
    posOf i (feedback (stats, order) i adjust).2 ≤ posOf i order := by
  obtain ⟨r, hd, hdecomp, hnotin⟩ := dropWhile_mem_decomp i order hmem
  have hndr : i ∉ r := by
    rw [hdecomp] at hnd
    exact (List.nodup_cons.mp hnd.of_append_right).1
  have hw := feedback_weight stats order i adjust hi
  rw [hw] at hinc
  rw [feedback_unfold stats order i adjust r hd]
  dsimp only
  rw [if_pos (by linarith :
    (0 : ℚ) < (if 0 ≤ adjust then (stats.getD i 0 + adjust) / 2
      else stats.getD i 0 + adjust) - stats.getD i 0)]
  have hnr : i ∉ (order.takeWhile (fun a => a != i)).reverse := by
    rw [List.mem_reverse]; exact hnotin
  calc posOf i (bubbleUp _ i r (order.takeWhile (fun a => a != i)).reverse)
      ≤ (order.takeWhile (fun a => a != i)).reverse.length := bubbleUp_pos _ i _ r hnr hndr
    _ = posOf i order := by rw [List.length_reverse]; rfl

theorem replicate_zero_getD (n h : Nat) : (List.replicate n (0 : ℚ)).getD h 0 = 0 := by
  simp only [List.getD_eq_getElem?_getD, List.getElem?_replicate]
  split <;> rfl

/-- One drained message preserves the per-bucket invariant of the
`AutoScheduler` routing state. -/
theorem autoStep_inv (n bs : Nat) (st : List (List ℚ) × List (List Nat))
    (m : Nat × Nat × ℚ) (hm1 : m.1 < n) (hm2 : m.2.1 < bs)
    (hl1 : st.1.length = bs) (hl2 : st.2.length = bs)
    (hrow : ∀ b, b < bs → (st.1.getD b []).length = n ∧
      ((st.2.getD b []).Perm (List.range n)) ∧
      sortedDesc (fun h => (st.1.getD b []).getD h 0) (st.2.getD b [])) :
    (autoStep st m).1.length = bs ∧ (autoStep st m).2.length = bs ∧
      ∀ b, b < bs → ((autoStep st m).1.getD b []).length = n ∧
        (((autoStep st m).2.getD b []).Perm (List.range n)) ∧
        sortedDesc (fun h => ((autoStep st m).1.getD b []).getD h 0)
          ((autoStep st m).2.getD b []) := by
  obtain ⟨hln, hperm, hsort⟩ := hrow m.2.1 hm2
  refine ⟨by simp [autoStep, hl1], by simp [autoStep, hl2], ?_⟩
  intro b hb
  by_cases hbe : b = m.2.1
  · subst hbe
    have hg1 : (autoStep st m).1.getD m.2.1 [] =
        (feedback (st.1.getD m.2.1 [], st.2.getD m.2.1 []) m.1 m.2.2).1 := by
      simp only [autoStep]
      exact getD_set_self' _ _ _ _ (by omega)
    have hg2 : (autoStep st m).2.getD m.2.1 [] =
        (feedback (st.1.getD m.2.1 [], st.2.getD m.2.1 []) m.1 m.2.2).2 := by
      simp only [autoStep]
      exact getD_set_self' _ _ _ _ (by omega)
    rw [hg1, hg2]
    refine ⟨by rw [feedback_length]; exact hln, (feedback_perm _ _ _ _).trans hperm, ?_⟩
    refine feedback_step_sorted _ _ _ _ (by omega) ?_ ?_ hsort
    · exact hperm.symm.nodup (List.nodup_range n)
    · exact hperm.mem_iff.mpr (List.mem_range.mpr hm1)
  · have hg1 : (autoStep st m).1.getD b [] = st.1.getD b [] := by
      simp only [autoStep]
      exact getD_set_ne' _ _ _ _ _ (fun he => hbe he.symm)
    have hg2 : (autoStep st m).2.getD b [] = st.2.getD b [] := by
      simp only [autoStep]
      exact getD_set_ne' _ _ _ _ _ (fun he => hbe he.symm)
    rw [hg1, hg2]
    exact hrow b hb

/-- Draining a list of well-formed messages preserves the invariant. -/
theorem autoDrain_inv (n bs : Nat) :
    ∀ (msgs : List (Nat × Nat × ℚ)) (st : List (List ℚ) × List (List Nat)),
      (∀ m ∈ msgs, m.1 < n ∧ m.2.1 < bs) →
      st.1.length = bs → st.2.length = bs →
      (∀ b, b < bs → (st.1.getD b []).length = n ∧
        ((st.2.getD b []).Perm (List.range n)) ∧
        sortedDesc (fun h => (st.1.getD b []).getD h 0) (st.2.getD b [])) →
      (msgs.foldl autoStep st).1.length = bs ∧
        (msgs.foldl autoStep st).2.length = bs ∧
        ∀ b, b < bs → ((msgs.foldl autoStep st).1.getD b []).length = n ∧
          (((msgs.foldl autoStep st).2.getD b []).Perm (List.range n)) ∧
          sortedDesc (fun h => ((msgs.foldl autoStep st).1.getD b []).getD h 0)
            ((msgs.foldl autoStep st).2.getD b []) := by
  intro msgs
  induction msgs with
  | nil => intro st _ hl1 hl2 hrow; exact ⟨hl1, hl2, hrow⟩
  | cons m rest ih =>
    intro st hm hl1 hl2 hrow
    rw [List.foldl_cons]
    obtain ⟨hm1, hm2⟩ := hm m (List.mem_cons_self m rest)
    obtain ⟨h1, h2, h3⟩ := autoStep_inv n bs st m hm1 hm2 hl1 hl2 hrow
    exact ih (autoStep st m) (fun x hx => hm x (List.mem_cons_of_mem m hx)) h1 h2 h3

/-- Inversion of a successful construction: whatever host list produced it,
the returned scheduler's ring is sorted, has `100 · n` packed entries, and its
host field is the input list. -/
theorem chEntries_wf (hashf : HashMethod) :
    ∀ (hosts : List (List Char)) (i : Nat) (es : List Nat),
      chEntries hashf i hosts = some es →
      es.length = VIRTUAL_NODES * hosts.length ∧
      ∀ e ∈ es, ∃ v k, e = v * 2 ^ 32 + k ∧ i ≤ k ∧ k < i + hosts.length := by
  intro hosts
  induction hosts with
  | nil =>
    intro i es he
    simp only [chEntries, Option.some.injEq] at he
    subst he
    exact ⟨by simp, by simp⟩
  | cons h hs ih =>
    intro i es he
    simp only [chEntries] at he
    cases hsp : splitN2 h ':' with
    | nil => rw [hsp] at he; cases he
    | cons a l1 =>
      cases l1 with
      | nil => rw [hsp] at he; cases he
      | cons b l2 =>
        cases l2 with
        | cons d l3 => rw [hsp] at he; cases he
        | nil =>
          rw [hsp] at he
          cases hre : chEntries hashf (i + 1) hs with
          | none => rw [hre] at he; cases he
          | some rest =>
            rw [hre] at he
            simp only [Option.some.injEq] at he
            subst he
            obtain ⟨hlen, hwf⟩ := ih (i + 1) rest hre
            constructor
            · simp only [List.length_append, List.length_map, List.length_range, hlen,
                List.length_cons]
              ring
            · intro e hmem
              rcases List.mem_append.mp hmem with hmap | hrest2
              · obtain ⟨j, _, hj⟩ := List.mem_map.mp hmap
                exact ⟨_, i, hj.symm, le_rfl, by simp⟩
              · obtain ⟨v, k, hvk, h1k, hk⟩ := hwf e hrest2
                exact ⟨v, k, hvk, by omega, by simp [List.length_cons]; omega⟩

theorem newCHS_inv (hashf : HashMethod) (hosts : List (List Char))
    (c : List (List Char) × List Nat)
    (hsome : newConsistantHashScheduler hashf hosts = some c) :
    c.1 = hosts ∧ c.2.Chain' (· ≤ ·) ∧ c.2.length = VIRTUAL_NODES * hosts.length ∧
      ∀ e ∈ c.2, ∃ v k, e = v * 2 ^ 32 + k ∧ k < hosts.length := by
  unfold newConsistantHashScheduler at hsome
  cases hes : chEntries hashf 0 hosts with
  | none => rw [hes] at hsome; cases hsome
  | some es =>
    rw [hes] at hsome
    dsimp only at hsome
    by_cases hchk : isSortedLeB (sortIndex es) = true
    · rw [if_pos hchk] at hsome
      obtain rfl : (hosts, sortIndex es) = c := Option.some.inj hsome
      obtain ⟨hlen, hwf⟩ := chEntries_wf hashf hosts 0 es hes
      refine ⟨rfl, (isSortedLeB_iff _).mp hchk, ?_, ?_⟩
      · rw [show (sortIndex es).length = es.length from
          List.length_insertionSort (· ≤ ·) es, hlen]
      · intro e hmem
        have hees : e ∈ es := (List.perm_insertionSort (· ≤ ·) es).mem_iff.mp hmem
        obtain ⟨v, k, hvk, _, hk⟩ := hwf e hees
        exact ⟨v, k, hvk, by omega⟩
    · rw [if_neg hchk] at hsome
      cases hsome

/-! ## Claim theorems -/

/-- C1: One feedback application on an AutoScheduler bucket whose preference
sequence is sorted by descending weight (ties in any order, arbitrary weight
array, the adjusted host present in the order, which in real states is a
permutation of the host indices) leaves the sequence sorted by descending
weight; and after draining any finite sequence of well-formed feedback
messages from the initial all-zero state, every bucket's preference sequence
is sorted consistently with the final weights. -/
theorem auto_feedback_sort_invariant :
    (∀ (stats : List ℚ) (order : List Nat) (i : Nat) (adjust : ℚ),
      i < stats.length → order.Nodup → i ∈ order →
      sortedDesc (fun h => stats.getD h 0) order →
      sortedDesc (fun h => (feedback (stats, order) i adjust).1.getD h 0)
        (feedback (stats, order) i adjust).2) ∧
    (∀ (n bs : Nat) (msgs : List (Nat × Nat × ℚ)),
      (∀ m ∈ msgs, m.1 < n ∧ m.2.1 < bs) →
      ∀ b, b < bs →
        sortedDesc
          (fun h => ((msgs.foldl autoStep (newAutoState n bs)).1.getD b []).getD h 0)
          ((msgs.foldl autoStep (newAutoState n bs)).2.getD b [])) := by
  constructor
  · exact feedback_step_sorted
  · intro n bs msgs hm b hb
    have hinit : ∀ b2, b2 < bs → (((newAutoState n bs).1.getD b2 []).length = n ∧
        (((newAutoState n bs).2.getD b2 []).Perm (List.range n)) ∧
        sortedDesc (fun h => ((newAutoState n bs).1.getD b2 []).getD h 0)
          ((newAutoState n bs).2.getD b2 [])) := by
      intro b2 hb2
      unfold newAutoState
      rw [getD_replicate' _ _ _ [] hb2, getD_replicate' _ _ _ [] hb2]
      refine ⟨List.length_replicate _ _, List.Perm.refl _, ?_⟩
      dsimp only [sortedDesc]
      apply chain'_of_forall
      intro a c
      rw [replicate_zero_getD, replicate_zero_getD]
    have hfin := autoDrain_inv n bs msgs (newAutoState n bs) hm
      (List.length_replicate _ _) (List.length_replicate _ _) hinit
    exact (hfin.2.2 b hb).2.2

theorem auto_feedback_sort_invariant_witness :
    sortedDesc (fun h => (feedback ([0, 0], [0, 1]) 0 1).1.getD h 0)
      (feedback ([0, 0], [0, 1]) 0 1).2 ∧
    sortedDesc
      (fun h => ((([((1 : Nat), (0 : Nat), (5 : ℚ))].foldl autoStep
        (newAutoState 2 1)).1.getD 0 []).getD h 0))
      (([((1 : Nat), (0 : Nat), (5 : ℚ))].foldl autoStep (newAutoState 2 1)).2.getD 0 []) := by
  constructor
  · refine auto_feedback_sort_invariant.1 [0, 0] [0, 1] 0 1 (by decide) (by decide)
      (by decide) ?_
    dsimp only [sortedDesc]
    apply chain'_of_forall
    intro a b
    have hz : ∀ j, ([(0 : ℚ), 0]).getD j 0 = 0 := by
      intro j
      rcases j with _ | _ | j <;> rfl
    rw [hz a, hz b]
  · refine auto_feedback_sort_invariant.2 2 1 [(1, 0, 5)] ?_ 0 (by decide)
    intro m hm
    rw [List.mem_singleton] at hm
    subst hm
    exact ⟨by decide, by decide⟩

/-- C2 counterexample: the feedback message `adjust = 1` (positive) for host 0
with current weight 10 in a bucket `[0, 1]` with weights `[10, 8]` sets the
weight to `(10+1)/2 = 5.5 < 10` — a strict decrease — and bubbles host 0 back
from position 0 to position 1, behind host 1. -/
theorem positive_feedback_cex :
    (feedback ([10, 8], [0, 1]) 0 1).1.getD 0 0 < 10 ∧
    posOf 0 (feedback ([10, 8], [0, 1]) 0 1).2 = 1 ∧
    posOf 0 [0, 1] = 0 := by
  have hfb : feedback ([10, 8], [0, 1]) 0 1 = ([11 / 2, 8], [1, 0]) := by
    simp [feedback, List.span_eq_take_drop, bubbleDown, bubbleUp]
    norm_num
  rw [hfb]
  refine ⟨by norm_num, by decide, by decide⟩

/-- C2 amended: a feedback with `adjust ≥ 0` sets the weight to
`(weight+adjust)/2`, which strictly increases the weight exactly when
`adjust > weight` (not for every positive adjust); a negative adjust adds
fully; whenever the weight strictly increases, the host's position never moves
toward the back; and a single sufficiently negative feedback can move a host
behind one ranked below it (weights `[10, 8]`, adjust `-5` demotes host 0). -/
theorem positive_feedback_amended :
    (∀ (stats : List ℚ) (order : List Nat) (i : Nat) (adjust : ℚ), i < stats.length →
      (feedback (stats, order) i adjust).1.getD i 0 =
        if 0 ≤ adjust then (stats.getD i 0 + adjust) / 2 else stats.getD i 0 + adjust) ∧
    (∀ (stats : List ℚ) (order : List Nat) (i : Nat) (adjust : ℚ), i < stats.length →
      0 ≤ adjust →
      (stats.getD i 0 < (feedback (stats, order) i adjust).1.getD i 0 ↔
        stats.getD i 0 < adjust)) ∧
    (∀ (stats : List ℚ) (order : List Nat) (i : Nat) (adjust : ℚ), i < stats.length →
      order.Nodup → i ∈ order →
      stats.getD i 0 < (feedback (stats, order) i adjust).1.getD i 0 →
      posOf i (feedback (stats, order) i adjust).2 ≤ posOf i order) ∧
    (feedback ([10, 8], [0, 1]) 0 (-5) = ([5, 8], [1, 0]) ∧
      posOf 0 [0, 1] = 0 ∧ posOf 0 [1, 0] = 1) := by
  refine ⟨?_, ?_, ?_, ?_, by decide, by decide⟩
  · exact fun stats order i adjust hi => feedback_weight stats order i adjust hi
  · intro stats order i adjust hi hadj
    rw [feedback_weight stats order i adjust hi, if_pos hadj]
    constructor <;> intro h <;> linarith
  · exact fun stats order i adjust hi hnd hmem hinc =>
      feedback_pos_nonincrease stats order i adjust hi hnd hmem hinc
  · simp [feedback, List.span_eq_take_drop, bubbleDown, bubbleUp]
    norm_num

theorem positive_feedback_amended_witness :
    (feedback ([(4 : ℚ)], [0]) 0 2).1.getD 0 0 =
      if (0 : ℚ) ≤ 2 then (([(4 : ℚ)].getD 0 0) + 2) / 2
      else ([(4 : ℚ)].getD 0 0) + 2 :=
  positive_feedback_amended.1 [4] [0] 0 2 (by decide)

/-- C3 counterexample: for bucketCount `2^32` (bucketWidth 32, so 8 hex
characters) the `@`-branch parses in wrapping 32-bit `rune` arithmetic:
key `"@ffffffffx"` yields `-1`, not the base-16 parse `4294967295` of the
8-character digit substring. -/
theorem bucket_formula_cex :
    getBucketByKey fnv1a1 (2 ^ 32) (str "@ffffffffx") = -1 ∧
    hexParse (((str "@ffffffffx").drop 1).take (bucketWidthOf (2 ^ 32) / 4)) =
      4294967295 := by
  constructor <;> decide

/-- C3 amended: for a power-of-two bucket count `2^w` with `w ≤ 31` the three
branches behave exactly as claimed: an `@`-key longer than `w/4` characters
yields the exact base-16 parse of the next `w/4` characters (case-insensitive,
non-hex characters contributing 0); a `?`-key is stripped before hashing; any
other key hashes whole, shifted right by `32 - w`. (For larger bucket counts
the parse is performed in wrapping 32-bit signed arithmetic and can differ —
see the counterexample.) -/
theorem bucket_formula_amended (hashf : HashMethod) (w : Nat) (hw : w ≤ 31)
    (key : List Char) :
    (key.headD ' ' = '@' → key.length > w / 4 →
      getBucketByKey hashf (2 ^ w) key = hexParse ((key.drop 1).take (w / 4))) ∧
    (key.headD ' ' = '?' →
      getBucketByKey hashf (2 ^ w) key =
        ((hashf (key.drop 1) >>> (32 - w) : Nat) : Int)) ∧
    (¬(key.headD ' ' = '@' ∧ key.length > w / 4) → key.headD ' ' ≠ '?' →
      getBucketByKey hashf (2 ^ w) key = ((hashf key >>> (32 - w) : Nat) : Int)) := by
  rw [getBucketByKey_cases hashf w (by omega) (by omega) key]
  refine ⟨?_, ?_, ?_⟩
  · intro hat hlen
    rw [if_pos ⟨hlen, hat⟩]
    have hl7 : ((key.drop 1).take (w / 4)).length ≤ 7 := by
      rw [List.length_take]
      omega
    exact (hextoi_exact _ hl7).1
  · intro hq
    have hne : ¬(key.length > w / 4 ∧ key.headD ' ' = '@') := by
      rintro ⟨_, hat⟩
      rw [hq] at hat
      exact absurd hat (by decide)
    have hlen1 : key.length ≥ 1 := by
      cases key with
      | nil => exact absurd hq (by decide)
      | cons c t => simp
    rw [if_neg hne, if_pos ⟨hlen1, hq⟩]
  · intro hnat hnq
    have hne : ¬(key.length > w / 4 ∧ key.headD ' ' = '@') := fun ⟨h1, h2⟩ => hnat ⟨h2, h1⟩
    rw [if_neg hne, if_neg (fun h => hnq h.2)]

theorem bucket_formula_amended_witness :
    getBucketByKey fnv1a1 (2 ^ 16) (str "@0005") =
      hexParse (((str "@0005").drop 1).take (16 / 4)) :=
  (bucket_formula_amended fnv1a1 16 (by decide) (str "@0005")).1 (by decide) (by decide)

/-- C4 counterexample: with bucketWidth 16, the key `"@05"` (length 3, not
longer than `16/4 = 4`) does NOT take the `@`-override: it resolves through the
hash path to bucket 48171, which differs from the hex-parse 5 of its digit
substring. -/
theorem bucket_at16_cex :
    getBucketByKey fnv1a1 65536 (str "@05") = 48171 ∧
    hexParse (str "05") = 5 ∧ (48171 : Int) ≠ 5 := by
  refine ⟨by decide, by decide, by decide⟩

/-- C4 amended: with bucketWidth 16 the key `"@05"` is too short for the
`@`-override (it needs more than 4 characters), so it resolves by hashing the
whole key `"@05"` — the same bucket as `"?@05"`, whose `?` is stripped before
hashing `"@05"`; a key with four hex digits such as `"@0005"` does resolve via
the hex-parse (to 5). -/
theorem bucket_at16_amended (hashf : HashMethod) :
    getBucketByKey hashf 65536 (str "@05") = ((hashf (str "@05") >>> 16 : Nat) : Int) ∧
    getBucketByKey hashf 65536 (str "?@05") = ((hashf (str "@05") >>> 16 : Nat) : Int) ∧
    getBucketByKey hashf 65536 (str "@0005") = 5 := by
  have h16 : (65536 : Nat) = 2 ^ 16 := by norm_num
  rw [h16]
  refine ⟨?_, ?_, ?_⟩
  · rw [getBucketByKey_cases hashf 16 (by omega) (by omega)]
    rw [if_neg (by decide), if_neg (by decide)]
  · rw [getBucketByKey_cases hashf 16 (by omega) (by omega)]
    rw [if_neg (by decide), if_pos (by decide)]
    rfl
  · rw [getBucketByKey_cases hashf 16 (by omega) (by omega)]
    rw [if_pos (by decide)]
    decide

/-- C5 counterexample: a ManualScheduler built from a config whose bucket 0
has no assigned hosts fails on a key addressing bucket 0: `GetHostsByKey`
divides by `uint32(0)` (modelled as `none`), rather than returning a host. -/
theorem get_hosts_cex :
    manualGetHostsByKey (newManualScheduler [(str "a:7900", [1])]) (str "@") = none := by
  decide

/-- C5 amended: Mod, ConsistentHash and (fresh) Auto schedulers return at
least one host for every key when built from a non-empty host list; the
ManualScheduler returns all of the key's bucket's hosts — at least one — when
that bucket is non-empty, but fails with a division by zero (a panic, not a
host list) when the key's bucket has no assigned hosts. -/
theorem get_hosts_amended :
    (∀ (hashf : HashMethod) (hosts : List (List Char)) (key : List Char),
      0 < hosts.length → hosts.length < 2 ^ 32 →
      modGetHostsByKey hashf hosts key =
        some [hosts.getD (hashf key % hosts.length) []] ∧
      ((modGetHostsByKey hashf hosts key).getD []).length = 1) ∧
    (∀ (hashf : HashMethod) (hosts : List (List Char)) (key : List Char),
      (∀ h ∈ hosts, ':' ∈ h) → 0 < hosts.length → hosts.length ≤ 2 ^ 32 →
      ∀ c, newConsistantHashScheduler hashf hosts = some c →
        ((chGetHostsByKey hashf c key).getD []).length = 1 ∧
        (chGetHostsByKey hashf c key).isSome = true) ∧
    (∀ (hashf : HashMethod) (hosts : List (List Char)) (w : Nat) (key : List Char),
      (∀ k, hashf k < 2 ^ 32) → w ≤ 31 → 0 < hosts.length →
      autoGetHostsByKey hashf hosts (newAutoState hosts.length (2 ^ w)) key =
        some hosts) ∧
    (∀ (c : List (List Char) × List (List (List Char))) (key : List Char),
      0 ≤ getBucketByKey fnv1a1 c.2.length key →
      (getBucketByKey fnv1a1 c.2.length key).toNat < c.2.length →
      0 < (c.2.getD (getBucketByKey fnv1a1 c.2.length key).toNat []).length →
      (c.2.getD (getBucketByKey fnv1a1 c.2.length key).toNat []).length < 2 ^ 32 →
      ((manualGetHostsByKey c key).isSome = true ∧
        0 < ((manualGetHostsByKey c key).getD []).length)) := by
  refine ⟨?_, ?_, ?_, ?_⟩
  · intro hashf hosts key hpos hlt
    have hm : hosts.length % 2 ^ 32 = hosts.length := Nat.mod_eq_of_lt hlt
    unfold modGetHostsByKey
    rw [hm, if_neg (by omega)]
    exact ⟨rfl, rfl⟩
  · intro hashf hosts key hc hpos hle c hsome
    obtain ⟨c0, he0, hfst, hsort, hlen, hwf⟩ := newCHS_spec hashf hosts hc
    rw [hsome] at he0
    obtain rfl : c = c0 := Option.some.inj he0
    have hne : c.2 ≠ [] := by
      rw [← List.length_pos]
      rw [hlen]
      have : 0 < VIRTUAL_NODES := by norm_num [VIRTUAL_NODES]
      positivity
    have hwf2 : ∀ e ∈ c.2, e % 2 ^ 32 < c.1.length := by
      intro e hmem
      obtain ⟨v, k, hvk, hk⟩ := hwf e hmem
      rw [hfst, hvk, packed_mod v k hosts.length hk hle]
      exact hk
    have heq := chGetHostsByKey_eq hashf c.1 c.2 key hne hwf2
    rw [heq]
    exact ⟨rfl, rfl⟩
  · intro hashf hosts w key hb hw hpos
    exact autoGetHostsByKey_fresh hashf hb hosts w hw key
  · intro c key h0 hlt hbpos hblt
    have hmod : (c.2.getD (getBucketByKey fnv1a1 c.2.length key).toNat []).length
        % 2 ^ 32 ≠ 0 := by
      rw [Nat.mod_eq_of_lt hblt]
      omega
    obtain ⟨l, hl, hlen⟩ := manualGetHostsByKey_some c key h0 hlt hmod
    rw [hl]
    exact ⟨rfl, by rw [Option.getD_some]; omega⟩

theorem get_hosts_amended_witness :
    modGetHostsByKey fnv1a1 [str "a:1"] (str "k") =
      some [[str "a:1"].getD (fnv1a1 (str "k") % 1) []] ∧
    ((modGetHostsByKey fnv1a1 [str "a:1"] (str "k")).getD []).length = 1 :=
  get_hosts_amended.1 fnv1a1 [str "a:1"] (str "k") (by decide) (by decide)

/-- C6: For a `≤`-sorted (non-empty, well-formed) ring index, `getHostIndex`
returns the low 32 bits of the first ring entry whose packed value is at least
`hash(key) << 32`, wrapping to the entry at index 0 when no entry qualifies;
consequently `GetHostsByKey` returns exactly one host. Determinism across
repeated calls is inherent in the model: the functions are pure. -/
theorem get_host_index_spec (hashf : HashMethod) (hosts : List (List Char))
    (index : List Nat) (key : List Char)
    (hs : index.Chain' (· ≤ ·)) (hne : index ≠ [])
    (hwf : ∀ e ∈ index, e % 2 ^ 32 < hosts.length) :
    (∀ k0, k0 < index.length → hashf key * 2 ^ 32 ≤ index.getD k0 0 →
      (∀ k, k < k0 → ¬(hashf key * 2 ^ 32 ≤ index.getD k 0)) →
      getHostIndex hashf (hosts, index) key = index.getD k0 0 % 2 ^ 32) ∧
    ((∀ k, k < index.length → ¬(hashf key * 2 ^ 32 ≤ index.getD k 0)) →
      getHostIndex hashf (hosts, index) key = index.getD 0 0 % 2 ^ 32) ∧
    chGetHostsByKey hashf (hosts, index) key =
      some [hosts.getD (getHostIndex hashf (hosts, index) key) []] ∧
    ((chGetHostsByKey hashf (hosts, index) key).getD []).length = 1 := by
  have mono : ∀ a b, a ≤ b → b < index.length →
      (fun k => decide (hashf key * 2 ^ 32 ≤ index.getD k 0)) a = true →
      (fun k => decide (hashf key * 2 ^ 32 ≤ index.getD k 0)) b = true := by
    intro a b hab hb hfa
    simp only [decide_eq_true_eq] at hfa ⊢
    exact le_trans hfa (sorted_getD_mono index hs a b hab hb)
  obtain ⟨hle, hlow, hhit⟩ := goSearch_spec index.length
    (fun k => decide (hashf key * 2 ^ 32 ≤ index.getD k 0)) mono
  refine ⟨?_, ?_, ?_, ?_⟩
  · intro k0 hk0 hge hfirst
    have hrk : goSearch index.length
        (fun k => decide (hashf key * 2 ^ 32 ≤ index.getD k 0)) = k0 := by
      by_contra hcon
      rcases Nat.lt_or_ge (goSearch index.length
        (fun k => decide (hashf key * 2 ^ 32 ≤ index.getD k 0))) k0 with hlt | hge2
      · have h3 := hhit (by omega)
        simp only [decide_eq_true_eq] at h3
        exact hfirst _ hlt h3
      · have h4 := hlow k0 (by omega)
        simp only [decide_eq_false_iff_not] at h4
        exact h4 hge
    rw [getHostIndex_def, hrk, if_neg (by omega)]
  · intro hnone
    have hrk : goSearch index.length
        (fun k => decide (hashf key * 2 ^ 32 ≤ index.getD k 0)) = index.length := by
      rcases Nat.lt_or_ge (goSearch index.length
        (fun k => decide (hashf key * 2 ^ 32 ≤ index.getD k 0))) index.length with hlt | hge2
      · have h3 := hhit hlt
        simp only [decide_eq_true_eq] at h3
        exact absurd h3 (hnone _ hlt)
      · omega
    rw [getHostIndex_def, hrk, if_pos rfl]
  · exact chGetHostsByKey_eq hashf hosts index key hne hwf
  · rw [chGetHostsByKey_eq hashf hosts index key hne hwf]
    rfl

theorem get_host_index_spec_witness :
    chGetHostsByKey fnv1a1 ([str "a"], [21474836480]) (str "k") =
      some [[str "a"].getD
        (getHostIndex fnv1a1 ([str "a"], [21474836480]) (str "k")) []] :=
  (get_host_index_spec fnv1a1 [str "a"] [21474836480] (str "k")
    (List.chain'_singleton _) (by decide) (by decide)).2.2.1

/-- C7: For every host list whose addresses all contain a colon, the
consistent-hash constructor succeeds (so the "sort failed" fatal branch is
not reached) and the resulting ring index is sorted ascending. -/
theorem ring_sorted (hashf : HashMethod) (hosts : List (List Char))
    (hc : ∀ h ∈ hosts, ':' ∈ h) :
    (newConsistantHashScheduler hashf hosts).isSome = true ∧
    ((newConsistantHashScheduler hashf hosts).getD ([], [])).2.Chain' (· ≤ ·) := by
  obtain ⟨c, he, _, hsort, _, _⟩ := newCHS_spec hashf hosts hc
  rw [he]
  exact ⟨rfl, hsort⟩

theorem ring_sorted_witness :
    (newConsistantHashScheduler fnv1a1 [str "a:7900"]).isSome = true ∧
    ((newConsistantHashScheduler fnv1a1 [str "a:7900"]).getD
      ([], [])).2.Chain' (· ≤ ·) :=
  ring_sorted fnv1a1 [str "a:7900"] (by decide)

/-- C8: For Mod and ConsistentHash schedulers over a non-empty host list,
`DivideKeysByBucket` returns exactly `len(hosts)` groups; group `b` is exactly
the keys owned by host `b` (hash mod `n` for Mod, ring owner for
ConsistentHash) in their original relative order (a filter of the input);
and flattening the groups is a permutation of the input keys. -/
theorem divide_keys_partition :
    (∀ (hashf : HashMethod) (hosts : List (List Char)) (keys : List (List Char)),
      0 < hosts.length → hosts.length < 2 ^ 32 →
      (modDivideKeysByBucket hashf hosts keys).length = hosts.length ∧
      (∀ b, b < hosts.length → (modDivideKeysByBucket hashf hosts keys).getD b [] =
        keys.filter (fun k => hashf k % hosts.length == b)) ∧
      ((modDivideKeysByBucket hashf hosts keys).flatten).Perm keys) ∧
    (∀ (hashf : HashMethod) (hosts : List (List Char))
      (c : List (List Char) × List Nat) (keys : List (List Char)),
      newConsistantHashScheduler hashf hosts = some c → 0 < hosts.length →
      hosts.length ≤ 2 ^ 32 →
      (chDivideKeysByBucket hashf c keys).length = hosts.length ∧
      (∀ b, b < hosts.length → (chDivideKeysByBucket hashf c keys).getD b [] =
        keys.filter (fun k => getHostIndex hashf c k == b)) ∧
      ((chDivideKeysByBucket hashf c keys).flatten).Perm keys) := by
  constructor
  · intro hashf hosts keys hpos hlt
    have howner : (fun key => hashf key % (hosts.length % 2 ^ 32)) =
        (fun key => hashf key % hosts.length) := by
      funext k
      rw [Nat.mod_eq_of_lt hlt]
    have hko : ∀ k ∈ keys, hashf k % hosts.length < hosts.length :=
      fun k _ => Nat.mod_lt _ hpos
    unfold modDivideKeysByBucket
    rw [howner]
    obtain ⟨hl, hg⟩ := divideKeys_spec (fun key => hashf key % hosts.length)
      hosts.length keys hko
    exact ⟨hl, hg, divideKeys_flatten_perm _ _ _ hko⟩
  · intro hashf hosts c keys hsome hpos hle
    obtain ⟨hfst, hsort, hlen, hwf⟩ := newCHS_inv hashf hosts c hsome
    have hne : c.2 ≠ [] := by
      rw [← List.length_pos, hlen]
      have h100 : 0 < VIRTUAL_NODES := by norm_num [VIRTUAL_NODES]
      positivity
    have hwf2 : ∀ e ∈ c.2, e % 2 ^ 32 < hosts.length := by
      intro e hmem
      obtain ⟨v, k, hvk, hk⟩ := hwf e hmem
      rw [hvk, packed_mod v k hosts.length hk hle]
      exact hk
    have hko : ∀ k ∈ keys, getHostIndex hashf c k < hosts.length := by
      intro k _
      have := getHostIndex_lt hashf c.1 c.2 k hne (hfst ▸ hwf2)
      rwa [hfst] at this
    unfold chDivideKeysByBucket
    rw [hfst]
    obtain ⟨hl, hg⟩ := divideKeys_spec (getHostIndex hashf c) hosts.length keys hko
    exact ⟨hl, hg, divideKeys_flatten_perm _ _ _ hko⟩

theorem divide_keys_partition_witness :
    ((modDivideKeysByBucket fnv1a1 [str "a"] [str "k"]).flatten).Perm [str "k"] :=
  (divide_keys_partition.1 fnv1a1 [str "a"] [str "k"] (by decide) (by decide)).2.2

/-- C9 counterexample: a probe record whose count field `"xyz"` is unparseable
is NOT skipped — `ParseFloat`'s error is discarded and the zero value is used,
so one feedback with adjust `Sqrt 0 = 0` is submitted for the record's key. -/
theorem probe_records_cex :
    listHostFeedbacks (fun q => q) (str "@") (str "a/ 0 xyz") = [(str "@a/", 0)] := by
  decide

/-- C9 amended: in a probe response of three records `<name> <flags> <count>`
(names with `'/'` as second byte, fields free of spaces and newlines), a record
whose count is unparseable produces one feedback with adjust `Sqrt 0 = 0` — it
is not skipped — while the surrounding well-formed records each produce one
feedback with adjust `Sqrt count`; the malformed record does not abort the
processing of the records after it. (Responses are split into at most 17
newline-chunks, so this covers the per-record behavior the code applies to the
first 16 lines.) -/
theorem probe_records_amended (sqrtF : ℚ → ℚ) (dir : List Char)
    (name1 flags1 cnt1 name2 flags2 cnt2 name3 flags3 cnt3 : List Char) (q1 q3 : ℚ)
    (hfree : ∀ s ∈ [name1, flags1, cnt1, name2, flags2, cnt2, name3, flags3, cnt3],
      ' ' ∉ s ∧ '\n' ∉ s)
    (hn1 : 1 < name1.length) (hs1 : name1.getD 1 ' ' = '/')
    (hn2 : 1 < name2.length) (hs2 : name2.getD 1 ' ' = '/')
    (hn3 : 1 < name3.length) (hs3 : name3.getD 1 ' ' = '/')
    (hp1 : goParseFloat cnt1 = some q1) (hp2 : goParseFloat cnt2 = none)
    (hp3 : goParseFloat cnt3 = some q3) (hsq : sqrtF 0 = 0) :
    listHostFeedbacks sqrtF dir
      ((name1 ++ ' ' :: (flags1 ++ ' ' :: cnt1)) ++ '\n' ::
        ((name2 ++ ' ' :: (flags2 ++ ' ' :: cnt2)) ++ '\n' ::
          (name3 ++ ' ' :: (flags3 ++ ' ' :: cnt3)))) =
      [(dir ++ name1, sqrtF q1), (dir ++ name2, 0), (dir ++ name3, sqrtF q3)] := by
  have hline : ∀ name flags cnt : List Char,
      (' ' ∉ name ∧ '\n' ∉ name) → (' ' ∉ flags ∧ '\n' ∉ flags) →
      (' ' ∉ cnt ∧ '\n' ∉ cnt) →
      '\n' ∉ name ++ ' ' :: (flags ++ ' ' :: cnt) := by
    intro name flags cnt h1 h2 h3 hmem
    rcases List.mem_append.mp hmem with h | h
    · exact h1.2 h
    · rcases List.mem_cons.mp h with h | h
      · exact absurd h (by decide)
      · rcases List.mem_append.mp h with h | h
        · exact h2.2 h
        · rcases List.mem_cons.mp h with h | h
          · exact absurd h (by decide)
          · exact h3.2 h
  have hl1 := hline name1 flags1 cnt1 (hfree _ (by simp)) (hfree _ (by simp))
    (hfree _ (by simp))
  have hl2 := hline name2 flags2 cnt2 (hfree _ (by simp)) (hfree _ (by simp))
    (hfree _ (by simp))
  have hl3 := hline name3 flags3 cnt3 (hfree _ (by simp)) (hfree _ (by simp))
    (hfree _ (by simp))
  have e1 := listHostLine_record sqrtF dir name1 flags1 cnt1 (hfree _ (by simp)).1
    (hfree _ (by simp)).1 (hfree _ (by simp)).1 hn1 hs1
  rw [hp1, Option.getD_some] at e1
  have e2 := listHostLine_record sqrtF dir name2 flags2 cnt2 (hfree _ (by simp)).1
    (hfree _ (by simp)).1 (hfree _ (by simp)).1 hn2 hs2
  rw [hp2, Option.getD_none, hsq] at e2
  have e3 := listHostLine_record sqrtF dir name3 flags3 cnt3 (hfree _ (by simp)).1
    (hfree _ (by simp)).1 (hfree _ (by simp)).1 hn3 hs3
  rw [hp3, Option.getD_some] at e3
  unfold listHostFeedbacks
  rw [show (17 : Nat) = 15 + 2 from rfl,
    splitNChar_cons_of_sep_free '\n' _ _ hl1 15,
    show (15 + 1 : Nat) = 14 + 2 from rfl,
    splitNChar_cons_of_sep_free '\n' _ _ hl2 14,
    show (14 + 1 : Nat) = 13 + 2 from rfl,
    splitNChar_no_sep '\n' _ hl3 13]
  simp only [List.filterMap_cons, e1, e2, e3, List.filterMap_nil]

theorem probe_records_amended_witness :
    listHostFeedbacks (fun q => q) (str "@")
      ((str "a/" ++ ' ' :: (str "0" ++ ' ' :: str "5")) ++ '\n' ::
        ((str "b/" ++ ' ' :: (str "0" ++ ' ' :: str "xyz")) ++ '\n' ::
          (str "c/" ++ ' ' :: (str "0" ++ ' ' :: str "2")))) =
      [(str "@" ++ str "a/", (fun q : ℚ => q) (1 * (natOfDigits (str "5") : ℚ))),
        (str "@" ++ str "b/", 0),
        (str "@" ++ str "c/", (fun q : ℚ => q) (1 * (natOfDigits (str "2") : ℚ)))] :=
  probe_records_amended (fun q => q) (str "@") (str "a/") (str "0") (str "5")
    (str "b/") (str "0") (str "xyz") (str "c/") (str "0") (str "2")
    (1 * (natOfDigits (str "5") : ℚ)) (1 * (natOfDigits (str "2") : ℚ))
    (by decide) (by decide) (by decide) (by decide) (by decide) (by decide) (by decide)
    rfl rfl rfl rfl

/-- C10: `NewConsistantHashScheduler` panics (index out of range on the port
split, modelled `none`) for any host list containing an address without a
colon, and succeeds for every host list whose addresses all contain one. -/
theorem ch_construction_colon :
    (∀ (hashf : HashMethod) (hosts : List (List Char)), (∃ h ∈ hosts, ':' ∉ h) →
      newConsistantHashScheduler hashf hosts = none) ∧
    (∀ (hashf : HashMethod) (hosts : List (List Char)), (∀ h ∈ hosts, ':' ∈ h) →
      (newConsistantHashScheduler hashf hosts).isSome = true) := by
  constructor
  · exact fun hashf hosts hbad => newCHS_none hashf hosts hbad
  · intro hashf hosts hc
    obtain ⟨c, he, _, _, _, _⟩ := newCHS_spec hashf hosts hc
    rw [he]
    rfl

theorem ch_construction_colon_witness :
    newConsistantHashScheduler fnv1a1 [str "localhost"] = none ∧
    (newConsistantHashScheduler fnv1a1 [str "a:1"]).isSome = true :=
  ⟨ch_construction_colon.1 fnv1a1 [str "localhost"] ⟨str "localhost", by decide, by decide⟩,
    ch_construction_colon.2 fnv1a1 [str "a:1"] (by decide)⟩
